import Mathlib

/-
Verification development for the Stochastic-0L-System-Inference repository.

The Python sources are shallowly embedded as executable Lean definitions:
strings become lists of characters, Python dicts become association lists
kept in insertion order (the order in which the Python code inserts keys),
Python ints become naturals, and Python floats become exact rationals
(real-arithmetic idealization of IEEE doubles).  A raised exception is
modelled as an Option/Except failure value.
-/

/-- A production is a pair of a character and the substring it rewrites to,
mirroring the (char, rewriting_substring) tuples of the Python code. -/
abbrev Production := Char × List Char

/-- A derivation dictionary: (string_index, char_index) keys mapped to
productions.  The Python dict is modelled as an association list in key
insertion order; the DFS inserts keys in increasing position order, so list
equality coincides with Python dict equality on the lists the code builds. -/
abbrev Deriv := List ((Nat × Nat) × Production)

/-- Python slice t[a:] for a nonnegative index a (the only case the DFS
reaches, since last_used_in_t + 1 is at least 0 there). -/
def pySliceFrom (t : List Char) (a : Int) : List Char := t.drop a.toNat

/-- Python slice t[a:b] for nonnegative indices a and b (the only case the
DFS reaches). -/
def pySlice (t : List Char) (a b : Int) : List Char := (t.take b.toNat).drop a.toNat

/-- Model of _dfs_all_derivations from src/derivations.py.

The states of the Python recursion are (string_index, char_index) pairs; here
the first list argument carries the still-unassigned suffix of
seq[string_index] as its head, followed by the remaining strings of seq, so
that the three Python branch tests (string_index == len(seq) - 1,
char_index == len(s), char_index == len(s) - 1) become the list patterns
(rows has at most one element, head is empty, head is a singleton).  The
mutated accumulator list all_mappings becomes the returned list, and the
mutated dict current_mapping becomes an association list extended on the
right (each completed path assigns each key exactly once, in increasing
position order, exactly as the Python dict ends up).  In the singleton
branch the Python code passes len(s) - 1 as the new cursor, which at that
point equals char_index; the value is dead in every continuation either way.
The fuel argument is a totality device only: every recursive call decreases
the combined size (number of remaining characters plus number of remaining
strings) by exactly one, and get_derivations supplies exactly that size, so
the fuel-exhaustion branch is unreachable from get_derivations. -/
def dfs_all_derivations (fuel : Nat) (rows : List (List Char))
    (string_index char_index : Nat) (last_used_in_t : Int)
    (current_mapping : Deriv) : List Deriv :=
  match rows, fuel with
  | [], _ => [current_mapping]
  | [_], _ => [current_mapping]
  | _ :: _ :: _, 0 => []
  | s :: t :: rest, fuel + 1 =>
    match s with
    | [] =>
        dfs_all_derivations fuel (t :: rest) (string_index + 1) 0 (-1) current_mapping
    | [c] =>
        dfs_all_derivations fuel ([] :: t :: rest) string_index (char_index + 1)
          (char_index : Int)
          (current_mapping ++ [((string_index, char_index),
            (c, pySliceFrom t (last_used_in_t + 1)))])
    | c :: c2 :: tl =>
        (List.range (((t.length : Int) - 1 - (last_used_in_t + 1)).toNat)).flatMap fun k =>
          dfs_all_derivations fuel ((c2 :: tl) :: t :: rest) string_index (char_index + 1)
            (last_used_in_t + 1 + (k : Int))
            (current_mapping ++ [((string_index, char_index),
              (c, pySlice t (last_used_in_t + 1) (last_used_in_t + 1 + (k : Int) + 1)))])

/-- Model of get_derivations from src/derivations.py: run the DFS from
string 0, character 0, cursor -1, empty mapping.  Python raises an
IndexError on the empty sequence; that unreachable-by-claims case is
modelled as the empty result list. -/
def get_derivations (seq : List (List Char)) : List Deriv :=
  match seq with
  | [] => []
  | s :: rest =>
      dfs_all_derivations ((s :: rest).flatten.length + (s :: rest).length)
        (s :: rest) 0 0 (-1) []

/-- All ways of cutting t into n consecutive pieces the way the DFS does for
one string of length n: every piece but the last is a nonempty proper prefix
of what remains (the Python loop bound right_index <= len(t) - 2), and the
last character absorbs the whole remainder (possibly empty).  For n = 0 the
row contributes nothing and there is exactly one (empty) choice, matching
the DFS branch for an exhausted string. -/
def splits : Nat → List Char → List (List (List Char))
  | 0, _ => [[]]
  | 1, t => [[t]]
  | n + 2, t =>
      (List.range (t.length - 1)).flatMap fun k =>
        (splits (n + 1) (t.drop (k + 1))).map fun ps => t.take (k + 1) :: ps

/-- The association-list block a row contributes: characters of s paired in
order with the pieces ps, keyed by (i, ci), (i, ci + 1), .... -/
def rowAssignFrom (i : Nat) : Nat → List Char → List (List Char) → Deriv
  | _, [], _ => []
  | _, _ :: _, [] => []
  | ci, c :: s, p :: ps => ((i, ci), (c, p)) :: rowAssignFrom i (ci + 1) s ps

/-- Row block starting at character index 0. -/
def rowAssign (i : Nat) (s : List Char) (ps : List (List Char)) : Deriv :=
  rowAssignFrom i 0 s ps

/-- Compositional reformulation of the DFS output: for each consecutive pair
of strings choose a split of the target, earlier rows varying slowest, and
concatenate the row blocks.  Proved below to equal get_derivations. -/
def allDerivsFrom : Nat → List (List Char) → List Deriv
  | _, [] => [[]]
  | _, [_] => [[]]
  | si, s :: t :: rest =>
      (splits s.length t).flatMap fun ps =>
        (allDerivsFrom (si + 1) (t :: rest)).map fun d => rowAssign si s ps ++ d

/-- The positions (string_index, char_index) of every character of every
non-final string of the sequence, in row-major order. -/
def positions (seq : List (List Char)) : List (Nat × Nat) :=
  (List.range (seq.length - 1)).flatMap fun i =>
    (List.range ((seq.getD i []).length)).map fun j => (i, j)

/-- Positions with the string indices shifted by si; positions is the si = 0
instance (up to 0 + i = i). -/
def positionsFrom (si : Nat) (rows : List (List Char)) : List (Nat × Nat) :=
  (List.range (rows.length - 1)).flatMap fun i =>
    (List.range ((rows.getD i []).length)).map fun j => (si + i, j)

/-- The substring a derivation assigns to position (i, j); default junk for
an absent key (never hit on the keys the theorems range over). -/
def assignedPiece (d : Deriv) (i j : Nat) : List Char :=
  ((List.lookup (i, j) d).getD default).2

/-- The concatenation, in character-index order, of the substrings d assigns
to the positions of seq[i]. -/
def rowConcat (seq : List (List Char)) (d : Deriv) (i : Nat) : List Char :=
  (List.range ((seq.getD i []).length)).flatMap fun j => assignedPiece d i j

/-- rowConcat with the string index shifted by si. -/
def rowConcatFrom (si : Nat) (rows : List (List Char)) (d : Deriv) (i : Nat) : List Char :=
  (List.range ((rows.getD i []).length)).flatMap fun j => assignedPiece d (si + i) j

/-- The claim's description of a valid derivation for seq, written over the
canonical representation the enumerator uses (keys in row-major insertion
order): the mapping is total on exactly the positions of the non-final
strings, each position (i, j) is assigned (seq[i][j], w) with w a non-empty
substring, and for each i the assigned substrings read in position order
exactly partition seq[i+1] (their concatenation is seq[i+1]). -/
def validCanon (seq : List (List Char)) (d : Deriv) : Prop :=
  d.map Prod.fst = positions seq ∧
  (∀ e ∈ d, e.2.1 = (seq.getD e.1.1 []).getD e.1.2 default ∧ e.2.2 ≠ []) ∧
  (∀ i ∈ List.range (seq.length - 1), rowConcat seq d i = seq.getD (i + 1) [])

instance instDecidableValidCanon (seq : List (List Char)) (d : Deriv) :
    Decidable (validCanon seq d) := by
  unfold validCanon
  infer_instance

/-- Model of the dict-count idiom m[k] = m.get(k, 0) + 1 of src/utils.py:
bump the first entry with the given key, else append the key with count 1
(Python dicts keep the insertion position of an updated key). -/
def dictIncr {α : Type} [DecidableEq α] : List (α × Nat) → α → List (α × Nat)
  | [], k => [(k, 1)]
  | (k0, v) :: rest, k =>
      if k0 = k then (k0, v + 1) :: rest else (k0, v) :: dictIncr rest k

/-- Occurrence counts of the elements of a list, as an insertion-ordered
association list (the result of folding dictIncr over the list). -/
def tally {α : Type} [DecidableEq α] (l : List α) : List (α × Nat) :=
  l.foldl dictIncr []

/-- Model of get_prod_count from src/utils.py: tally how often each
production occurs among the values of the derivation dict (iterated in
insertion order). -/
def get_prod_count (derivation : Deriv) : List (Production × Nat) :=
  derivation.foldl (fun m e => dictIncr m e.2) []

/-- Model of non_constant_factor from src/utils.py: the product of
count ^ count over the production counts of the derivation (a Python int). -/
def non_constant_factor (derivation : Deriv) : Nat :=
  (get_prod_count derivation).foldl (fun factor p => factor * p.2 ^ p.2) 1

/-- Model of optimal_scaled_probability_val from src/utils.py; the sequence
argument is unused, exactly as in the source. -/
def optimal_scaled_probability_val (seq : List (List Char)) (derivation : Deriv) : Nat :=
  non_constant_factor derivation

/-- Model of constant_factor from src/utils.py: character counts over all
strings but the last, and the reciprocal of the product of count ^ count
(the Python float division 1 / const_factor becomes exact division in ℚ). -/
def constant_factor (seq : List (List Char)) : ℚ × List (Char × Nat) :=
  let seq_char_count := seq.dropLast.foldl (fun m s => s.foldl dictIncr m) []
  let const_factor : Nat := seq_char_count.foldl (fun f p => f * p.2 ^ p.2) 1
  ((1 : ℚ) / (const_factor : ℚ), seq_char_count)

/-- Model of Python max over a list of ints: none on the empty list (where
Python raises a bare ValueError), otherwise the maximum value. -/
def list_max : List Nat → Option Nat
  | [] => none
  | x :: xs => some (xs.foldl max x)

/-- Model of Python list.index: the index of the first occurrence (callers
below only use it on members, where Python would not raise). -/
def list_index {α : Type} [DecidableEq α] (a : α) : List α → Nat
  | [] => 0
  | x :: xs => if x = a then 0 else list_index a xs + 1

/-- Model of overall_dervs_maxprob from src/solver_q1.py.  none models the
undifferentiated ValueError that Python's max([]) raises when every DFS
branch was infeasible; there is no dedicated error type in the source.  The
seq_char_count[char] dict lookup is modelled with default 0; a missing key
(Python KeyError) is unreachable because every production of the best
derivation is headed by a character that occurs in some non-final string. -/
def overall_dervs_maxprob (seq : List (List Char)) :
    Option (List (Production × ℚ) × Deriv × ℚ) :=
  let derivation_list := get_derivations seq
  let scaled_probs := derivation_list.map (optimal_scaled_probability_val seq)
  match list_max scaled_probs with
  | none => none
  | some max_prob =>
      let max_index := list_index max_prob scaled_probs
      let best_derivation := derivation_list.getD max_index []
      let production_count := get_prod_count best_derivation
      let cf := constant_factor seq
      let best_derv_distribution := production_count.map fun pf =>
        (pf.1, (pf.2 : ℚ) / (((List.lookup pf.1.1 cf.2).getD 0 : Nat) : ℚ))
      some (best_derv_distribution, best_derivation, (max_prob : ℚ) * cf.1)

/-- The claim-side normalizing denominator of Theorem 4.1: the product, over
every distinct character occurring in the non-final strings, of
count ^ count. -/
def charProduct (seq : List (List Char)) : ℚ :=
  ((seq.dropLast.flatten.dedup).map fun c =>
    ((seq.dropLast.flatten.count c : ℚ)) ^ (seq.dropLast.flatten.count c)).prod

/-- Lexicographic Boolean comparison of strings, as Python compares str. -/
def strLe : List Char → List Char → Bool
  | [], _ => true
  | _ :: _, [] => false
  | x :: xs, y :: ys => if x < y then true else if y < x then false else strLe xs ys

/-- Lexicographic comparison of (char, rewriting) pairs, as Python compares
tuples of a char and a string. -/
def prodLe (a b : Production) : Bool :=
  if a.1 < b.1 then true else if b.1 < a.1 then false else strLe a.2 b.2

/-- Insert into a sorted list, the cell of an insertion sort. -/
def insertSorted {α : Type} (le : α → α → Bool) (a : α) : List α → List α
  | [] => [a]
  | b :: rest => if le a b then a :: b :: rest else b :: insertSorted le a rest

/-- Insertion sort, modelling Python's sorted (the inputs it is used on
below are duplicate-free, so stability is immaterial). -/
def sortBy {α : Type} (le : α → α → Bool) (l : List α) : List α :=
  l.foldr (insertSorted le) []

/-- The distinct (char, rewriting) pairs occurring as values across the
derivation dicts (Python's all_pairs set). -/
def all_prods (dict_list : List Deriv) : List Production :=
  (dict_list.flatMap fun d => d.map fun e => e.2).dedup

/-- Model of pairs_list from solve_s0l in src/solver_q2.py: the sorted list
of all distinct productions. -/
def pairs_list (dict_list : List Deriv) : List Production :=
  sortBy prodLe (all_prods dict_list)

/-- Model of unique_chars from solve_s0l: the sorted distinct left-side
characters of a pairs list. -/
def unique_chars (pl : List Production) : List Char :=
  sortBy (fun a b => decide (a ≤ b)) ((pl.map fun p => p.1).dedup)

/-- Index-aware map over a rational array, used to model the per-index numpy
array writes guess_arr[idx] = ... of src/solver_q2.py. -/
def mapWithIdx (f : Nat → ℚ → ℚ) : Nat → List ℚ → List ℚ
  | _, [] => []
  | i, x :: xs => f i x :: mapWithIdx f (i + 1) xs

/-- The left-side character owning index i of the pairs list (the Python
code groups indices by pairs_list[i][0]). -/
def charAtIdx (pl : List Production) (i : Nat) : Char := (pl.getD i default).1

/-- The sum of the entries of arr at the indices owned by character c
(guess_arr[indices_for_char].sum()). -/
def sum_for_char (pl : List Production) (arr : List ℚ) (c : Char) : ℚ :=
  (mapWithIdx (fun i x => if charAtIdx pl i = c then x else 0) 0 arr).sum

/-- The number of rewrites available to character c
(len(indices_for_char)). -/
def k_for_char (pl : List Production) (c : Char) : Nat :=
  (pl.filter fun p => p.1 == c).length

/-- The literal threshold 1e-12 of src/solver_q2.py, exact in ℚ. -/
def epsilon12 : ℚ := 1 / 1000000000000

/-- One pass of the per-letter renormalization loop of solve_s0l: divide the
letter's entries by their sum when it exceeds 1e-12, else set them all to
the uniform 1/k. -/
def normalize_char (pl : List Production) (arr : List ℚ) (c : Char) : List ℚ :=
  let s := sum_for_char pl arr c
  if epsilon12 < s then
    mapWithIdx (fun i x => if charAtIdx pl i = c then x / s else x) 0 arr
  else
    mapWithIdx (fun i x => if charAtIdx pl i = c then (1 : ℚ) / (k_for_char pl c : ℚ) else x) 0 arr

/-- The default uniform initial guess of solve_s0l: start from all ones and
overwrite each letter's entries with 1/k. -/
def uniform_guess (pl : List Production) : List ℚ :=
  (unique_chars pl).foldl
    (fun arr c =>
      mapWithIdx (fun i x => if charAtIdx pl i = c then (1 : ℚ) / (k_for_char pl c : ℚ) else x) 0 arr)
    (List.replicate pl.length 1)

/-- Model of steps 1-2 of solve_s0l from src/solver_q2.py (the part of the
function that decides the error behaviour the claim is about): build or
validate-and-renormalize the initial guess.  The Except.error value models
the ValueError the source raises on a length mismatch; the subsequent scipy
optimizer call is external to the repository and is not modelled. -/
def solve_s0l_guess (pl : List Production) (init_guess : Option (List ℚ)) :
    Except String (List ℚ) :=
  match init_guess with
  | none => Except.ok (uniform_guess pl)
  | some g =>
      if g.length ≠ pl.length then
        Except.error "init_guess length does not match the number of pairs"
      else
        Except.ok ((unique_chars pl).foldl (normalize_char pl) g)

/-- The claim-side description of the renormalization: each entry is divided
by the (original) sum of its symbol's entries, or replaced by the uniform
1/k when that sum is at most the 1e-12 threshold. -/
def specRenormalize (pl : List Production) (g : List ℚ) : List ℚ :=
  mapWithIdx
    (fun i x =>
      let c := charAtIdx pl i
      let s := sum_for_char pl g c
      if epsilon12 < s then x / s else (1 : ℚ) / (k_for_char pl c : ℚ))
    0 g

/-- Model of the accounting skeleton of solve_with_restarts from
src/solver_q2.py: each attempt is abstracted to its (converged?, objective)
outcome pair as returned by the external scipy optimizer; the fold is
literally the Python loop body, which keeps a running best objective
(initially -inf, modelled as none) and increments success_count inside the
same conditional that requires the attempt to strictly improve the best. -/
def solve_with_restarts_select (attempts : List (Bool × ℚ)) : Option ℚ × Nat :=
  attempts.foldl
    (fun acc att =>
      let improves := match acc.1 with
        | none => true
        | some b => decide (b < att.2)
      if att.1 && improves then (some att.2, acc.2 + 1) else acc)
    (none, 0)

lemma flatMap_congr_fun {α β : Type} (l : List α) {f g : α → List β}
    (h : ∀ a, f a = g a) : l.flatMap f = l.flatMap g := by
  have : f = g := funext h
  rw [this]

lemma rowAssignFrom_nil (i ci : Nat) (ps : List (List Char)) :
    rowAssignFrom i ci [] ps = [] := by
  cases ps <;> rfl

/-- Row-level correspondence: running the DFS over the remaining characters
of the current string with cursor last is the same as choosing a split of
the still-unconsumed suffix of t, recording the row block, and continuing
with the next string.  The fuel bookkeeping is exact: every DFS step burns
one unit. -/
lemma dfs_row_eq (t : List Char) (rest : List (List Char)) (si : Nat) :
    ∀ (s : List Char) (fuel ci : Nat) (last : Int) (cur : Deriv), -1 ≤ last →
      dfs_all_derivations (fuel + s.length + 1) (s :: t :: rest) si ci last cur =
        (splits s.length (t.drop (last + 1).toNat)).flatMap fun ps =>
          dfs_all_derivations fuel (t :: rest) (si + 1) 0 (-1)
            (cur ++ rowAssignFrom si ci s ps) := by
  intro s
  induction s with
  | nil =>
      intro fuel ci last cur _h
      simp [dfs_all_derivations, splits, rowAssignFrom_nil]
  | cons c s ih =>
      cases s with
      | nil =>
          intro fuel ci last cur _h
          simp only [dfs_all_derivations, splits, List.length_cons, List.length_nil,
            List.flatMap_singleton, rowAssignFrom, rowAssignFrom_nil]
          rfl
      | cons c2 tl =>
          intro fuel ci last cur h
          have hstep :
              dfs_all_derivations (fuel + (c :: c2 :: tl).length + 1)
                  ((c :: c2 :: tl) :: t :: rest) si ci last cur =
                (List.range (((t.length : Int) - 1 - (last + 1)).toNat)).flatMap fun k =>
                  dfs_all_derivations (fuel + (c2 :: tl).length + 1)
                    ((c2 :: tl) :: t :: rest) si (ci + 1) (last + 1 + (k : Int))
                    (cur ++ [((si, ci),
                      (c, pySlice t (last + 1) (last + 1 + (k : Int) + 1)))]) := by
            show dfs_all_derivations ((fuel + (c2 :: tl).length + 1) + 1) _ _ _ _ _ = _
            rfl
          rw [hstep]
          have hcount : (((t.length : Int) - 1 - (last + 1)).toNat)
              = (t.drop (last + 1).toNat).length - 1 := by
            rw [List.length_drop]; omega
          have ha : ((last + 1).toNat : Int) = last + 1 := Int.toNat_of_nonneg (by omega)
          -- rewrite each branch of the loop with the induction hypothesis
          have hbranch : ∀ k : Nat,
              dfs_all_derivations (fuel + (c2 :: tl).length + 1)
                  ((c2 :: tl) :: t :: rest) si (ci + 1) (last + 1 + (k : Int))
                  (cur ++ [((si, ci),
                    (c, pySlice t (last + 1) (last + 1 + (k : Int) + 1)))]) =
                (splits (c2 :: tl).length ((t.drop (last + 1).toNat).drop (k + 1))).flatMap
                  fun ps =>
                    dfs_all_derivations fuel (t :: rest) (si + 1) 0 (-1)
                      (cur ++ rowAssignFrom si ci (c :: c2 :: tl)
                        ((t.drop (last + 1).toNat).take (k + 1) :: ps)) := by
            intro k
            rw [ih fuel (ci + 1) (last + 1 + (k : Int)) _ (by omega)]
            have hdrop : t.drop ((last + 1 + (k : Int) + 1).toNat)
                = (t.drop (last + 1).toNat).drop (k + 1) := by
              rw [List.drop_drop]
              congr 1
              omega
            have hpiece : pySlice t (last + 1) (last + 1 + (k : Int) + 1)
                = (t.drop (last + 1).toNat).take (k + 1) := by
              unfold pySlice
              rw [List.drop_take]
              congr 1
              omega
            rw [hdrop, hpiece]
            apply flatMap_congr_fun
            intro ps
            congr 1
            show cur ++ [((si, ci), (c, (t.drop (last + 1).toNat).take (k + 1)))]
                ++ rowAssignFrom si (ci + 1) (c2 :: tl) ps = _
            rw [List.append_assoc]
            rfl
          rw [flatMap_congr_fun _ hbranch]
          -- now massage the right-hand side into the same shape
          rw [show splits (c :: c2 :: tl).length (t.drop (last + 1).toNat)
              = (List.range ((t.drop (last + 1).toNat).length - 1)).flatMap fun k =>
                  (splits (c2 :: tl).length
                    ((t.drop (last + 1).toNat).drop (k + 1))).map fun ps =>
                      (t.drop (last + 1).toNat).take (k + 1) :: ps from rfl]
          rw [List.flatMap_assoc]
          rw [hcount]
          apply flatMap_congr_fun
          intro k
          rw [List.flatMap_map]

/-- The DFS started at the top of a string computes the compositional
product over rows, appended to the accumulated mapping. -/
lemma dfs_eq_allDerivsFrom :
    ∀ (rows : List (List Char)) (si : Nat) (cur : Deriv),
      dfs_all_derivations (rows.flatten.length + rows.length) rows si 0 (-1) cur =
        (allDerivsFrom si rows).map fun d => cur ++ d := by
  intro rows
  induction rows with
  | nil => intro si cur; simp [dfs_all_derivations, allDerivsFrom]
  | cons s rows ih =>
      cases rows with
      | nil => intro si cur; simp [dfs_all_derivations, allDerivsFrom]
      | cons t rest =>
          intro si cur
          have hfuel : (s :: t :: rest).flatten.length + (s :: t :: rest).length
              = ((t :: rest).flatten.length + (t :: rest).length) + s.length + 1 := by
            simp [List.flatten_cons, List.length_append]
            omega
          rw [hfuel,
            dfs_row_eq t rest si s ((t :: rest).flatten.length + (t :: rest).length)
              0 (-1) cur (by omega)]
          have hdrop0 : t.drop ((-1 : Int) + 1).toNat = t := by norm_num
          rw [hdrop0]
          show _ = (allDerivsFrom si (s :: t :: rest)).map fun d => cur ++ d
          rw [show allDerivsFrom si (s :: t :: rest)
              = (splits s.length t).flatMap fun ps =>
                  (allDerivsFrom (si + 1) (t :: rest)).map fun d =>
                    rowAssign si s ps ++ d from rfl]
          rw [List.map_flatMap]
          apply flatMap_congr_fun
          intro ps
          rw [ih (si + 1) (cur ++ rowAssignFrom si 0 s ps), List.map_map]
          apply congrArg (fun f => List.map f (allDerivsFrom (si + 1) (t :: rest)))
          funext d
          show (cur ++ rowAssignFrom si 0 s ps) ++ d = cur ++ (rowAssign si s ps ++ d)
          rw [List.append_assoc]
          rfl

/-- get_derivations computes exactly the compositional row-product
enumeration. -/
lemma get_derivations_eq (s : List Char) (rest : List (List Char)) :
    get_derivations (s :: rest) = allDerivsFrom 0 (s :: rest) := by
  show dfs_all_derivations ((s :: rest).flatten.length + (s :: rest).length)
      (s :: rest) 0 0 (-1) [] = _
  rw [dfs_eq_allDerivsFrom (s :: rest) 0 []]
  simp

lemma splits_length : ∀ (n : Nat) (t : List Char) (ps : List (List Char)),
    ps ∈ splits n t → ps.length = n := by
  intro n
  induction n using Nat.strong_induction_on with
  | _ n ih =>
      match n with
      | 0 => intro t ps hps; simp [splits] at hps; simp [hps]
      | 1 => intro t ps hps; simp [splits] at hps; simp [hps]
      | n + 2 =>
          intro t ps hps
          simp only [splits, List.mem_flatMap, List.mem_map, List.mem_range] at hps
          obtain ⟨k, -, qs, hqs, rfl⟩ := hps
          have := ih (n + 1) (by omega) (t.drop (k + 1)) qs hqs
          simp [this]

lemma flatten_ne_nil_of_head (ps : List (List Char)) (hne : ∀ p ∈ ps, p ≠ [])
    (h : ps ≠ []) : ps.flatten ≠ [] := by
  match ps with
  | [] => exact absurd rfl h
  | q :: ps' =>
      have hq : q ≠ [] := hne q (List.mem_cons_self q ps')
      simp only [List.flatten_cons, ne_eq, List.append_eq_nil]
      intro hc
      exact hq hc.1

/-- Membership in splits n t, for n at least 1 and t nonempty, is exactly:
n pieces, all nonempty, concatenating to t. -/
lemma splits_mem : ∀ (n : Nat) (t : List Char), t ≠ [] → 1 ≤ n →
    ∀ ps : List (List Char),
      (ps ∈ splits n t ↔
        ps.length = n ∧ (∀ p ∈ ps, p ≠ []) ∧ ps.flatten = t) := by
  intro n
  induction n using Nat.strong_induction_on with
  | _ n ih =>
      match n with
      | 0 => intro t _ h1; omega
      | 1 =>
          intro t ht _ ps
          constructor
          · intro hps
            simp [splits] at hps
            subst hps
            refine ⟨rfl, ?_, by simp⟩
            intro p hp
            simp at hp
            subst hp
            exact ht
          · rintro ⟨hlen, hne, hflat⟩
            match ps with
            | [p] => simp at hflat; simp [splits, hflat]
      | n + 2 =>
          intro t ht _ ps
          constructor
          · intro hps
            simp only [splits, List.mem_flatMap, List.mem_map, List.mem_range] at hps
            obtain ⟨k, hk, qs, hqs, rfl⟩ := hps
            have hlt : k + 1 < t.length := by omega
            have hsuf : t.drop (k + 1) ≠ [] := by
              intro hc
              have := List.length_drop (k + 1) t
              rw [hc] at this
              simp at this
              omega
            have ihh := (ih (n + 1) (by omega) (t.drop (k + 1)) hsuf (by omega) qs).mp hqs
            refine ⟨by simp [ihh.1], ?_, ?_⟩
            · intro p hp
              rcases List.mem_cons.mp hp with h | h
              · subst h
                intro hc
                have hlen0 := congrArg List.length hc
                rw [List.length_take] at hlen0
                simp only [List.length_nil] at hlen0
                have hmin := Nat.min_eq_zero_iff.mp hlen0
                omega
              · exact ihh.2.1 p h
            · simp only [List.flatten_cons, ihh.2.2]
              exact List.take_append_drop (k + 1) t
          · rintro ⟨hlen, hne, hflat⟩
            match ps with
            | p :: qs =>
                have hp : p ≠ [] := hne p (List.mem_cons_self p qs)
                have hqsne : qs.flatten ≠ [] := by
                  apply flatten_ne_nil_of_head
                  · intro q hq; exact hne q (List.mem_cons_of_mem p hq)
                  · intro hc; subst hc; simp at hlen
                have hplen : 1 ≤ p.length := by
                  cases p with
                  | nil => exact absurd rfl hp
                  | cons a b => simp
                have hflat' : p ++ qs.flatten = t := by simpa using hflat
                have hplt : p.length < t.length := by
                  rw [← hflat', List.length_append]
                  have : 1 ≤ qs.flatten.length := by
                    cases h : qs.flatten with
                    | nil => exact absurd h hqsne
                    | cons a b => simp
                  omega
                simp only [splits, List.mem_flatMap, List.mem_map, List.mem_range]
                refine ⟨p.length - 1, by omega, qs, ?_, ?_⟩
                · have hdrop : t.drop (p.length - 1 + 1) = qs.flatten := by
                    rw [show p.length - 1 + 1 = p.length by omega, ← hflat']
                    exact List.drop_left p qs.flatten
                  rw [hdrop]
                  refine (ih (n + 1) (by omega) qs.flatten hqsne (by omega) qs).mpr
                    ⟨by simpa using hlen, fun q hq => hne q (List.mem_cons_of_mem p hq), rfl⟩
                · have htake : t.take (p.length - 1 + 1) = p := by
                    rw [show p.length - 1 + 1 = p.length by omega, ← hflat']
                    exact List.take_left p qs.flatten
                  rw [htake]

lemma splits_nodup : ∀ (n : Nat) (t : List Char), (splits n t).Nodup := by
  intro n
  induction n using Nat.strong_induction_on with
  | _ n ih =>
      match n with
      | 0 => intro t; simp [splits]
      | 1 => intro t; simp [splits]
      | n + 2 =>
          intro t
          simp only [splits]
          rw [List.nodup_flatMap]
          constructor
          · intro k _
            exact (ih (n + 1) (by omega) (t.drop (k + 1))).map List.cons_injective
          · rw [List.pairwise_iff_getElem]
            intro a b ha hb hab
            simp only [List.length_range] at ha hb
            simp only [List.getElem_range]
            intro x hxa hxb
            simp only [List.mem_map] at hxa hxb
            obtain ⟨psa, -, hxe⟩ := hxa
            obtain ⟨psb, -, hye⟩ := hxb
            have hcons : t.take (a + 1) :: psa = t.take (b + 1) :: psb :=
              hxe.trans hye.symm
            have hheads : t.take (a + 1) = t.take (b + 1) := by
              injection hcons
            have hlens := congrArg List.length hheads
            simp only [List.length_take] at hlens
            omega

lemma rowAssignFrom_length (i : Nat) :
    ∀ (s : List Char) (ci : Nat) (ps : List (List Char)),
      (rowAssignFrom i ci s ps).length = min s.length ps.length := by
  intro s
  induction s with
  | nil => intro ci ps; cases ps <;> simp [rowAssignFrom]
  | cons c s ih =>
      intro ci ps
      cases ps with
      | nil => simp [rowAssignFrom]
      | cons p ps =>
          simp only [rowAssignFrom, List.length_cons, ih (ci + 1) ps]
          omega

lemma rowAssignFrom_keys (i : Nat) :
    ∀ (s : List Char) (ci : Nat) (ps : List (List Char)), s.length = ps.length →
      (rowAssignFrom i ci s ps).map Prod.fst
        = (List.range s.length).map fun j => (i, ci + j) := by
  intro s
  induction s with
  | nil => intro ci ps _; simp [rowAssignFrom_nil]
  | cons c s ih =>
      intro ci ps h
      cases ps with
      | nil => simp at h
      | cons p ps =>
          simp only [List.length_cons] at h
          simp only [rowAssignFrom, List.map_cons, List.length_cons,
            List.range_succ_eq_map, List.map_map]
          rw [ih (ci + 1) ps (by omega)]
          refine congrArg₂ List.cons rfl ?_
          apply congrArg (fun f => List.map f (List.range s.length))
          funext j
          show ((i, ci + 1 + j) : Nat × Nat) = (i, ci + (j + 1))
          congr 1
          omega

lemma rowAssignFrom_values (i : Nat) :
    ∀ (s : List Char) (ci : Nat) (ps : List (List Char)), s.length = ps.length →
      (rowAssignFrom i ci s ps).map (fun e => e.2.2) = ps := by
  intro s
  induction s with
  | nil => intro ci ps h; cases ps with
      | nil => rfl
      | cons p ps => simp at h
  | cons c s ih =>
      intro ci ps h
      cases ps with
      | nil => simp at h
      | cons p ps =>
          simp only [List.length_cons] at h
          simp only [rowAssignFrom, List.map_cons]
          rw [ih (ci + 1) ps (by omega)]

lemma rowAssignFrom_mem (i : Nat) :
    ∀ (s : List Char) (ci : Nat) (ps : List (List Char)) (e : (Nat × Nat) × Production),
      e ∈ rowAssignFrom i ci s ps →
        ∃ j, j < s.length ∧ j < ps.length ∧
          e = ((i, ci + j), (s.getD j default, ps.getD j [])) := by
  intro s
  induction s with
  | nil => intro ci ps e he; rw [rowAssignFrom_nil] at he; simp at he
  | cons c s ih =>
      intro ci ps e he
      cases ps with
      | nil => simp [rowAssignFrom] at he
      | cons p ps =>
          simp only [rowAssignFrom, List.mem_cons] at he
          rcases he with he | he
          · exact ⟨0, by simp, by simp, by simpa using he⟩
          · obtain ⟨j, hj1, hj2, hje⟩ := ih (ci + 1) ps e he
            refine ⟨j + 1, by simp only [List.length_cons]; omega,
              by simp only [List.length_cons]; omega, ?_⟩
            rw [hje]
            simp only [List.getD_cons_succ]
            congr 2
            omega

lemma rowAssignFrom_lookup (i : Nat) :
    ∀ (s : List Char) (ci : Nat) (ps : List (List Char)) (j : Nat),
      j < s.length → s.length = ps.length →
        List.lookup (i, ci + j) (rowAssignFrom i ci s ps)
          = some (s.getD j default, ps.getD j []) := by
  intro s
  induction s with
  | nil => intro ci ps j hj _; simp at hj
  | cons c s ih =>
      intro ci ps j hj h
      cases ps with
      | nil => simp at h
      | cons p ps =>
          simp only [List.length_cons] at h
          cases j with
          | zero =>
              simp only [rowAssignFrom, Nat.add_zero, List.lookup_cons]
              rw [beq_self_eq_true]
              rfl
          | succ j =>
              have hne : ((i, ci + (j + 1)) : Nat × Nat) ≠ (i, ci) := by
                intro hc
                have h2 := congrArg Prod.snd hc
                simp only at h2
                omega
              show List.lookup (i, ci + (j + 1))
                  (((i, ci), (c, p)) :: rowAssignFrom i (ci + 1) s ps) = _
              rw [List.lookup_cons, beq_false_of_ne hne]
              have hrec := ih (ci + 1) ps j (by simp only [List.length_cons] at hj; omega)
                (by omega)
              rw [show ci + 1 + j = ci + (j + 1) by omega] at hrec
              rw [hrec]
              rfl

lemma rowAssignFrom_reconstruct (i : Nat) :
    ∀ (s : List Char) (ci : Nat) (l : Deriv),
      l.map Prod.fst = (List.range s.length).map (fun j => (i, ci + j)) →
      (∀ j, j < l.length → (l.getD j ((0, 0), default)).2.1 = s.getD j default) →
      l = rowAssignFrom i ci s (l.map fun e => e.2.2) := by
  intro s
  induction s with
  | nil =>
      intro ci l hk _
      simp only [List.length_nil, List.range_zero, List.map_nil] at hk
      have : l = [] := by
        cases l with
        | nil => rfl
        | cons e l => simp at hk
      rw [this]
      rfl
  | cons c s ih =>
      intro ci l hk hv
      cases l with
      | nil =>
          simp only [List.map_nil, List.length_cons, List.range_succ_eq_map,
            List.map_cons] at hk
          exact absurd hk.symm (List.cons_ne_nil _ _)
      | cons e l =>
          simp only [List.map_cons, List.length_cons, List.range_succ_eq_map,
            List.map_map, List.cons.injEq] at hk
          have hkey : e.1 = (i, ci) := by
            have := hk.1
            simpa using this
          have hchar : e.2.1 = c := by
            have := hv 0 (by simp)
            simpa using this
          have hrest : l.map Prod.fst = (List.range s.length).map fun j => (i, (ci + 1) + j) := by
            rw [hk.2]
            apply congrArg (fun f => List.map f (List.range s.length))
            funext j
            show ((i, ci + Nat.succ j) : Nat × Nat) = (i, ci + 1 + j)
            congr 1
            omega
          have hvrest : ∀ j, j < l.length → (l.getD j ((0, 0), default)).2.1 = s.getD j default := by
            intro j hj
            have := hv (j + 1) (by simpa using Nat.succ_lt_succ hj)
            simpa using this
          show e :: l = rowAssignFrom i ci (c :: s) (e.2.2 :: l.map fun e => e.2.2)
          simp only [rowAssignFrom]
          refine congrArg₂ List.cons ?_ ?_
          · show e = ((i, ci), (c, e.2.2))
            rcases e with ⟨k, pr⟩
            rcases pr with ⟨ch, w⟩
            simp only at hkey hchar
            rw [hkey, hchar]
          · rw [← ih (ci + 1) l hrest hvrest]

lemma positionsFrom_nil (si : Nat) : positionsFrom si [] = [] := rfl

lemma positionsFrom_single (si : Nat) (x : List Char) : positionsFrom si [x] = [] := rfl

lemma positionsFrom_cons (si : Nat) (s : List Char) (rows : List (List Char))
    (h : rows ≠ []) :
    positionsFrom si (s :: rows)
      = ((List.range s.length).map fun j => (si, j)) ++ positionsFrom (si + 1) rows := by
  unfold positionsFrom
  have hlen : (s :: rows).length - 1 = (rows.length - 1) + 1 := by
    cases rows with
    | nil => exact absurd rfl h
    | cons t rest => simp
  rw [hlen, List.range_succ_eq_map, List.flatMap_cons, List.flatMap_map]
  congr 1
  apply flatMap_congr_fun
  intro x2
  simp only [List.getD_cons_succ]
  apply congrArg (fun f => List.map f (List.range ((rows.getD x2 []).length)))
  funext j
  show ((si + (x2 + 1) : Nat), j) = ((si + 1 + x2 : Nat), j)
  congr 1
  omega

lemma positions_eq_positionsFrom (seq : List (List Char)) :
    positions seq = positionsFrom 0 seq := by
  unfold positions positionsFrom
  apply flatMap_congr_fun
  intro i
  apply congrArg (fun f => List.map f (List.range ((seq.getD i []).length)))
  funext j
  show ((i : Nat), j) = ((0 + i : Nat), j)
  congr 1
  omega

lemma mem_positionsFrom (si : Nat) (rows : List (List Char)) (p : Nat × Nat) :
    p ∈ positionsFrom si rows
      ↔ ∃ i j, p = (si + i, j) ∧ i + 1 < rows.length ∧ j < (rows.getD i []).length := by
  unfold positionsFrom
  simp only [List.mem_flatMap, List.mem_range, List.mem_map]
  constructor
  · rintro ⟨i, hi, j, hj, rfl⟩
    exact ⟨i, j, rfl, by omega, hj⟩
  · rintro ⟨i, j, rfl, hi, hj⟩
    exact ⟨i, by omega, j, hj, rfl⟩

lemma lookup_append_of_mem {α β : Type} [BEq α] [LawfulBEq α] (k : α) :
    ∀ (l1 l2 : List (α × β)), k ∈ l1.map Prod.fst →
      List.lookup k (l1 ++ l2) = List.lookup k l1 := by
  intro l1
  induction l1 with
  | nil => intro l2 h; simp at h
  | cons e l1 ih =>
      intro l2 h
      rcases e with ⟨a, b⟩
      show List.lookup k ((a, b) :: (l1 ++ l2)) = _
      rw [List.lookup_cons, List.lookup_cons]
      cases hab : (k == a) with
      | true => rfl
      | false =>
          have hk : k ∈ l1.map Prod.fst := by
            simp only [List.map_cons, List.mem_cons] at h
            rcases h with h | h
            · rw [h] at hab; simp at hab
            · exact h
          exact ih l2 hk

lemma lookup_append_of_not_mem {α β : Type} [BEq α] [LawfulBEq α] (k : α) :
    ∀ (l1 l2 : List (α × β)), k ∉ l1.map Prod.fst →
      List.lookup k (l1 ++ l2) = List.lookup k l2 := by
  intro l1
  induction l1 with
  | nil => intro l2 _; rfl
  | cons e l1 ih =>
      intro l2 h
      rcases e with ⟨a, b⟩
      show List.lookup k ((a, b) :: (l1 ++ l2)) = _
      rw [List.lookup_cons]
      have hka : k ≠ a := by
        intro hc
        exact h (by simp [hc])
      rw [beq_false_of_ne hka]
      apply ih
      intro hc
      exact h (by simp [hc])

lemma range_flatMap_getD (ps : List (List Char)) :
    (List.range ps.length).flatMap (fun j => ps.getD j []) = ps.flatten := by
  induction ps with
  | nil => rfl
  | cons p ps ih =>
      simp only [List.length_cons, List.range_succ_eq_map, List.flatMap_cons,
        List.flatMap_map, List.getD_cons_zero, List.flatten_cons]
      congr 1

lemma range_map_getD {α : Type} (l : List α) (dflt : α) :
    (List.range l.length).map (fun j => l.getD j dflt) = l := by
  induction l with
  | nil => rfl
  | cons x l ih =>
      simp only [List.length_cons, List.range_succ_eq_map, List.map_cons,
        List.map_map, List.getD_cons_zero]
      congr 1

lemma flatMap_congr_mem {α β : Type} {l : List α} {f g : α → List β}
    (h : ∀ a ∈ l, f a = g a) : l.flatMap f = l.flatMap g := by
  induction l with
  | nil => rfl
  | cons a l ih =>
      simp only [List.flatMap_cons]
      rw [h a (List.mem_cons_self a l), ih (fun b hb => h b (List.mem_cons_of_mem a hb))]

/-- Soundness of the enumeration shape: every enumerated derivation has
exactly the canonical keys with the correct characters; and when every
string is nonempty, all assigned substrings are nonempty and each row
concatenates to the next string. -/
lemma shape_of_mem :
    ∀ (rows : List (List Char)) (si : Nat) (d : Deriv), d ∈ allDerivsFrom si rows →
      d.map Prod.fst = positionsFrom si rows ∧
      (∀ e ∈ d, e.2.1 = (rows.getD (e.1.1 - si) []).getD e.1.2 default) ∧
      ((∀ r ∈ rows, r ≠ []) →
        (∀ e ∈ d, e.2.2 ≠ []) ∧
        (∀ i ∈ List.range (rows.length - 1),
          rowConcatFrom si rows d i = rows.getD (i + 1) [])) := by
  intro rows
  induction rows with
  | nil =>
      intro si d hd
      simp only [allDerivsFrom, List.mem_singleton] at hd
      subst hd
      refine ⟨rfl, by simp, fun _ => ⟨by simp, by simp [positionsFrom]⟩⟩
  | cons s rows ih =>
      cases rows with
      | nil =>
          intro si d hd
          simp only [allDerivsFrom, List.mem_singleton] at hd
          subst hd
          refine ⟨rfl, by simp, fun _ => ⟨by simp, by simp [positionsFrom_single]⟩⟩
      | cons t rest =>
          intro si d hd
          simp only [allDerivsFrom, List.mem_flatMap, List.mem_map] at hd
          obtain ⟨ps, hps, d2, hd2, rfl⟩ := hd
          have hpslen : ps.length = s.length := splits_length s.length t ps hps
          obtain ⟨ihkeys, ihchars, ihrest⟩ := ih (si + 1) d2 hd2
          have hkeys1 : (rowAssign si s ps).map Prod.fst
              = (List.range s.length).map fun j => (si, j) := by
            rw [rowAssign, rowAssignFrom_keys si s 0 ps hpslen.symm]
            apply congrArg (fun f => List.map f (List.range s.length))
            funext j
            show ((si, 0 + j) : Nat × Nat) = (si, j)
            congr 1
            omega
          have hkeys : (rowAssign si s ps ++ d2).map Prod.fst
              = positionsFrom si (s :: t :: rest) := by
            rw [List.map_append, hkeys1, ihkeys,
              positionsFrom_cons si s (t :: rest) (List.cons_ne_nil t rest)]
          refine ⟨hkeys, ?_, ?_⟩
          · intro e he
            rcases List.mem_append.mp he with he | he
            · obtain ⟨j, hj1, hj2, rfl⟩ := rowAssignFrom_mem si s 0 ps e he
              simp only [Nat.zero_add]
              have : si - si = 0 := by omega
              simp [this]
            · have hekey : e.1 ∈ d2.map Prod.fst := List.mem_map_of_mem Prod.fst he
              rw [ihkeys, mem_positionsFrom] at hekey
              obtain ⟨i2, j2, hpe, hi2, hj2⟩ := hekey
              have h11 : e.1.1 = si + 1 + i2 := by rw [hpe]
              have hsub1 : e.1.1 - si = i2 + 1 := by omega
              have hsub2 : e.1.1 - (si + 1) = i2 := by omega
              have := ihchars e he
              rw [hsub2] at this
              rw [hsub1]
              simpa using this
          · intro hne
            have hsne : s ≠ [] := hne s (List.mem_cons_self s (t :: rest))
            have htne : t ≠ [] := hne t (by simp)
            have hslen : 1 ≤ s.length := by
              cases s with
              | nil => exact absurd rfl hsne
              | cons a b => simp
            have hsp := (splits_mem s.length t htne hslen ps).mp hps
            obtain ⟨ihne, ihconcat⟩ := ihrest (fun r hr => hne r (List.mem_cons_of_mem s hr))
            constructor
            · intro e he
              rcases List.mem_append.mp he with he | he
              · obtain ⟨j, hj1, hj2, rfl⟩ := rowAssignFrom_mem si s 0 ps e he
                have : ps.getD j [] ∈ ps := by
                  rw [List.getD_eq_getElem ps [] hj2]
                  exact List.getElem_mem hj2
                exact hsp.2.1 _ this
              · exact ihne e he
            · intro i hi
              simp only [List.mem_range] at hi
              cases i with
              | zero =>
                  show rowConcatFrom si (s :: t :: rest) (rowAssign si s ps ++ d2) 0 = t
                  unfold rowConcatFrom
                  simp only [List.getD_cons_zero]
                  have hstep : ∀ j ∈ List.range s.length,
                      assignedPiece (rowAssign si s ps ++ d2) (si + 0) j = ps.getD j [] := by
                    intro j hj
                    simp only [List.mem_range] at hj
                    unfold assignedPiece
                    have hmem : ((si + 0, j) : Nat × Nat) ∈ (rowAssign si s ps).map Prod.fst := by
                      rw [hkeys1]
                      simp only [List.mem_map, List.mem_range]
                      exact ⟨j, hj, by simp⟩
                    rw [lookup_append_of_mem _ _ _ hmem]
                    have hlk := rowAssignFrom_lookup si s 0 ps j hj hpslen.symm
                    rw [show (0 + j) = j by omega] at hlk
                    rw [show si + 0 = si by omega, rowAssign, hlk]
                    rfl
                  rw [flatMap_congr_mem hstep, ← hpslen, range_flatMap_getD]
                  exact hsp.2.2
              | succ i =>
                  show rowConcatFrom si (s :: t :: rest) (rowAssign si s ps ++ d2) (i + 1)
                    = (t :: rest).getD (i + 1) []
                  unfold rowConcatFrom
                  simp only [List.getD_cons_succ]
                  have hstep : ∀ j ∈ List.range (((t :: rest).getD i []).length),
                      assignedPiece (rowAssign si s ps ++ d2) (si + (i + 1)) j
                        = assignedPiece d2 (si + 1 + i) j := by
                    intro j _
                    unfold assignedPiece
                    have hnm : ((si + (i + 1), j) : Nat × Nat) ∉ (rowAssign si s ps).map Prod.fst := by
                      rw [hkeys1]
                      simp only [List.mem_map, List.mem_range]
                      rintro ⟨j2, -, hje⟩
                      have h2 := congrArg Prod.fst hje
                      simp only at h2
                      omega
                    rw [lookup_append_of_not_mem _ _ _ hnm]
                    rw [show si + (i + 1) = si + 1 + i by omega]
                  rw [flatMap_congr_mem hstep]
                  have hi2 : i < (t :: rest).length - 1 := by
                    simp only [List.length_cons] at hi ⊢
                    omega
                  have hfin := ihconcat i (List.mem_range.mpr hi2)
                  unfold rowConcatFrom at hfin
                  exact hfin

/-- Completeness of the enumeration: any association list with the canonical
key layout, correct characters, nonempty pieces, and correctly concatenating
rows is produced by the enumeration (all strings nonempty, length at least
2). -/
lemma mem_of_shape :
    ∀ (rows : List (List Char)) (si : Nat) (d : Deriv),
      2 ≤ rows.length → (∀ r ∈ rows, r ≠ []) →
      d.map Prod.fst = positionsFrom si rows →
      (∀ e ∈ d, e.2.1 = (rows.getD (e.1.1 - si) []).getD e.1.2 default ∧ e.2.2 ≠ []) →
      (∀ i ∈ List.range (rows.length - 1),
        rowConcatFrom si rows d i = rows.getD (i + 1) []) →
      d ∈ allDerivsFrom si rows := by
  intro rows
  induction rows with
  | nil => intro si d h2; simp at h2
  | cons s rows ih =>
      cases rows with
      | nil => intro si d h2; simp at h2
      | cons t rest =>
          intro si d _h2 hne hkeys hentries hconcat
          have hsne : s ≠ [] := hne s (List.mem_cons_self s (t :: rest))
          have htne : t ≠ [] := hne t (by simp)
          have hslen : 1 ≤ s.length := by
            cases s with
            | nil => exact absurd rfl hsne
            | cons a b => simp
          -- split d into the first row block and the rest
          set n := s.length with hn
          set d1 := d.take n with hd1
          set d2 := d.drop n with hd2
          have hsplit : d = d1 ++ d2 := (List.take_append_drop n d).symm
          have hkeyform : d.map Prod.fst
              = ((List.range n).map fun j => (si, j)) ++ positionsFrom (si + 1) (t :: rest) := by
            rw [hkeys, positionsFrom_cons si s (t :: rest) (List.cons_ne_nil t rest)]
          have hAlen : ((List.range n).map fun j => ((si, j) : Nat × Nat)).length = n := by
            simp
          have hkeys1 : d1.map Prod.fst = (List.range n).map fun j => (si, j) := by
            rw [hd1, List.map_take, hkeyform]
            exact List.take_left' hAlen
          have hkeys2 : d2.map Prod.fst = positionsFrom (si + 1) (t :: rest) := by
            rw [hd2, List.map_drop, hkeyform]
            exact List.drop_left' hAlen
          have hd1len : d1.length = n := by
            have := congrArg List.length hkeys1
            simpa using this
          -- reconstruct the first block as a rowAssign
          set ps := d1.map (fun e => e.2.2) with hps
          have hpslen : ps.length = n := by
            rw [hps]
            simpa using hd1len
          have hd1mem : ∀ j, j < n → d1.getD j ((0, 0), default) ∈ d := by
            intro j hj
            have hj1 : j < d1.length := by omega
            rw [List.getD_eq_getElem d1 _ hj1]
            rw [hsplit]
            exact List.mem_append_left d2 (List.getElem_mem hj1)
          have hd1key : ∀ j, j < n → (d1.getD j ((0, 0), default)).1 = (si, j) := by
            intro j hj
            have hj1 : j < d1.length := by omega
            have hq := congrArg (fun l => l[j]?) hkeys1
            simp only [List.getElem?_map] at hq
            rw [List.getElem?_eq_getElem hj1,
              List.getElem?_eq_getElem (show j < (List.range n).length by simpa using hj)] at hq
            simp only [List.getElem_range, Option.map_some'] at hq
            rw [List.getD_eq_getElem d1 _ hj1]
            exact Option.some.inj hq
          have hrec : d1 = rowAssignFrom si 0 s ps := by
            apply rowAssignFrom_reconstruct si s 0 d1
            · rw [hkeys1]
              apply congrArg (fun f => List.map f (List.range n))
              funext j
              show ((si, j) : Nat × Nat) = (si, 0 + j)
              congr 1
              omega
            · intro j hj
              have hj' : j < n := by omega
              have he := hentries _ (hd1mem j hj')
              have hkeyj := hd1key j hj'
              rw [he.1, hkeyj]
              simp
          -- the pieces form a split of t
          have hlookup : ∀ j, j < n →
              List.lookup ((si, j) : Nat × Nat) d = some (s.getD j default, ps.getD j []) := by
            intro j hj
            rw [hsplit]
            have hmem : ((si, j) : Nat × Nat) ∈ d1.map Prod.fst := by
              rw [hkeys1]
              simp only [List.mem_map, List.mem_range]
              exact ⟨j, hj, rfl⟩
            rw [lookup_append_of_mem _ _ _ hmem, hrec]
            have := rowAssignFrom_lookup si s 0 ps j (by omega) (by omega)
            rw [show (0 + j) = j by omega] at this
            exact this
          have hflat : ps.flatten = t := by
            have h0 := hconcat 0 (by simp)
            unfold rowConcatFrom at h0
            simp only [List.getD_cons_zero] at h0
            have hstep : ∀ j ∈ List.range s.length,
                assignedPiece d (si + 0) j = ps.getD j [] := by
              intro j hj
              simp only [List.mem_range] at hj
              unfold assignedPiece
              rw [show si + 0 = si by omega, hlookup j hj]
              rfl
            rw [flatMap_congr_mem hstep, show s.length = ps.length by omega,
              range_flatMap_getD] at h0
            simpa using h0
          have hpssplits : ps ∈ splits n t := by
            apply (splits_mem n t htne (by omega) ps).mpr
            refine ⟨by omega, ?_, hflat⟩
            intro p hp
            rw [hps] at hp
            simp only [List.mem_map] at hp
            obtain ⟨e, he, rfl⟩ := hp
            have : e ∈ d := by
              rw [hsplit]
              exact List.mem_append_left d2 he
            exact (hentries e this).2
          -- now handle the remaining rows
          cases rest with
          | nil =>
              have hd2nil : d2 = [] := by
                have := hkeys2
                rw [positionsFrom_single] at this
                exact List.map_eq_nil_iff.mp this
              have hdeq : d = rowAssign si s ps := by
                rw [hsplit, hd2nil, List.append_nil, hrec]
                rfl
              show d ∈ allDerivsFrom si [s, t]
              rw [show allDerivsFrom si [s, t]
                  = (splits s.length t).flatMap fun ps2 =>
                      (allDerivsFrom (si + 1) [t]).map fun dd =>
                        rowAssign si s ps2 ++ dd from rfl]
              apply List.mem_flatMap.mpr
              refine ⟨ps, hpssplits, List.mem_map.mpr ⟨[], List.mem_singleton_self [], ?_⟩⟩
              rw [List.append_nil, hdeq]
          | cons u rest' =>
              have hd2mem : d2 ∈ allDerivsFrom (si + 1) (t :: u :: rest') := by
                apply ih (si + 1) d2 (by simp) (fun r hr => hne r (List.mem_cons_of_mem s hr))
                  hkeys2
                · intro e he
                  have hed : e ∈ d := by
                    rw [hsplit]
                    exact List.mem_append_right d1 he
                  have hekey : e.1 ∈ d2.map Prod.fst := List.mem_map_of_mem Prod.fst he
                  rw [hkeys2, mem_positionsFrom] at hekey
                  obtain ⟨i2, j2, hpe, hi2, hj2⟩ := hekey
                  have h11 : e.1.1 = si + 1 + i2 := by rw [hpe]
                  have hsub1 : e.1.1 - si = i2 + 1 := by omega
                  have hsub2 : e.1.1 - (si + 1) = i2 := by omega
                  have := hentries e hed
                  rw [hsub1] at this
                  rw [hsub2]
                  refine ⟨?_, this.2⟩
                  simpa using this.1
                · intro i hi
                  simp only [List.mem_range, List.length_cons] at hi
                  have hii := hconcat (i + 1) (by simp only [List.mem_range, List.length_cons]; omega)
                  unfold rowConcatFrom at hii
                  simp only [List.getD_cons_succ] at hii
                  unfold rowConcatFrom
                  have hstep : ∀ j ∈ List.range (((t :: u :: rest').getD i []).length),
                      assignedPiece d2 (si + 1 + i) j = assignedPiece d (si + (i + 1)) j := by
                    intro j _
                    unfold assignedPiece
                    have hnm : ((si + (i + 1), j) : Nat × Nat) ∉ d1.map Prod.fst := by
                      rw [hkeys1]
                      simp only [List.mem_map, List.mem_range]
                      rintro ⟨j2, -, hje⟩
                      have h2 := congrArg Prod.fst hje
                      simp only at h2
                      omega
                    have hlk : List.lookup ((si + (i + 1), j) : Nat × Nat) d
                        = List.lookup ((si + (i + 1), j) : Nat × Nat) d2 := by
                      rw [hsplit]
                      exact lookup_append_of_not_mem _ _ _ hnm
                    rw [show si + 1 + i = si + (i + 1) by omega, hlk]
                  rw [flatMap_congr_mem hstep]
                  exact hii
              show d ∈ allDerivsFrom si (s :: t :: u :: rest')
              rw [show allDerivsFrom si (s :: t :: u :: rest')
                  = (splits s.length t).flatMap fun ps2 =>
                      (allDerivsFrom (si + 1) (t :: u :: rest')).map fun dd =>
                        rowAssign si s ps2 ++ dd from rfl]
              apply List.mem_flatMap.mpr
              refine ⟨ps, hpssplits, List.mem_map.mpr ⟨d2, hd2mem, ?_⟩⟩
              rw [hsplit, hrec]
              rfl

lemma allDerivsFrom_nodup :
    ∀ (rows : List (List Char)) (si : Nat), (∀ r ∈ rows, r ≠ []) →
      (allDerivsFrom si rows).Nodup := by
  intro rows
  induction rows with
  | nil => intro si _; simp [allDerivsFrom]
  | cons s rows ih =>
      cases rows with
      | nil => intro si _; simp [allDerivsFrom]
      | cons t rest =>
          intro si hne
          have hsne : s ≠ [] := hne s (List.mem_cons_self s (t :: rest))
          have hslen : 1 ≤ s.length := by
            cases s with
            | nil => exact absurd rfl hsne
            | cons a b => simp
          show ((splits s.length t).flatMap fun ps =>
            (allDerivsFrom (si + 1) (t :: rest)).map fun d => rowAssign si s ps ++ d).Nodup
          rw [List.nodup_flatMap]
          constructor
          · intro ps _
            apply List.Nodup.map
            · intro x y hxy
              exact List.append_cancel_left hxy
            · exact ih (si + 1) (fun r hr => hne r (List.mem_cons_of_mem s hr))
          · have hnd := splits_nodup s.length t
            apply List.Pairwise.imp_of_mem ?_ hnd
            intro ps1 ps2 hm1 hm2 hne12
            intro x hx1 hx2
            simp only [List.mem_map] at hx1 hx2
            obtain ⟨y1, -, he1⟩ := hx1
            obtain ⟨y2, -, he2⟩ := hx2
            have hlen1 : (rowAssign si s ps1).length = s.length := by
              rw [rowAssign, rowAssignFrom_length]
              have := splits_length s.length t ps1 hm1
              omega
            have hlen2 : (rowAssign si s ps2).length = s.length := by
              rw [rowAssign, rowAssignFrom_length]
              have := splits_length s.length t ps2 hm2
              omega
            have happ : rowAssign si s ps1 ++ y1 = rowAssign si s ps2 ++ y2 :=
              he1.trans he2.symm
            have hinj := List.append_inj happ (by omega)
            have hps12 : ps1 = ps2 := by
              have hv1 := rowAssignFrom_values si s 0 ps1
                ((splits_length s.length t ps1 hm1).symm)
              have hv2 := rowAssignFrom_values si s 0 ps2
                ((splits_length s.length t ps2 hm2).symm)
              rw [← hv1, ← hv2]
              show (rowAssign si s ps1).map (fun e => e.2.2)
                = (rowAssign si s ps2).map (fun e => e.2.2)
              rw [hinj.1]
            exact hne12 hps12

lemma nodup_count_eq_one {α : Type} [BEq α] [LawfulBEq α] {l : List α} {a : α}
    (hnd : l.Nodup) (ha : a ∈ l) : l.count a = 1 := by
  induction l with
  | nil => simp at ha
  | cons b l ih =>
      rw [List.count_cons]
      rcases List.mem_cons.mp ha with rfl | ha2
      · have hb : a ∉ l := (List.nodup_cons.mp hnd).1
        rw [List.count_eq_zero.mpr hb]
        simp
      · have hne2 : a ≠ b := by
          rintro rfl
          exact (List.nodup_cons.mp hnd).1 ha2
        rw [ih (List.nodup_cons.mp hnd).2 ha2, beq_false_of_ne (Ne.symm hne2)]
        simp

lemma rowConcat_eq_rowConcatFrom (seq : List (List Char)) (d : Deriv) (i : Nat) :
    rowConcat seq d i = rowConcatFrom 0 seq d i := by
  unfold rowConcat rowConcatFrom
  apply flatMap_congr_fun
  intro j
  rw [Nat.zero_add]

/-- C1, counterexample to the claim as stated: on the sequence consisting of
the empty string followed by the one-character string A, the enumerator
returns the empty mapping, whose row concatenation is empty and differs from
the second string, so the partition invariant fails for an enumerated
derivation of a sequence of two strings. -/
theorem C1_partition_counterexample :
    [] ∈ get_derivations [[], ['A']] ∧ rowConcat [[], ['A']] [] 0 ≠ ['A'] := by
  decide

/-- C1 (amended with nonempty strings): for every sequence of at least two
nonempty strings and every derivation enumerated by get_derivations, the
concatenation, in character-index order, of the substrings the derivation
assigns to the positions of seq[i] equals seq[i+1] exactly, for every i from
0 to len(seq)-2. -/
theorem C1_partition_amended (seq : List (List Char)) (h2 : 2 ≤ seq.length)
    (hne : ∀ s ∈ seq, s ≠ []) :
    ∀ d ∈ get_derivations seq, ∀ i ∈ List.range (seq.length - 1),
      rowConcat seq d i = seq.getD (i + 1) [] := by
  match seq, h2 with
  | s :: rest, _ =>
      rw [get_derivations_eq]
      intro d hd i hi
      have h := ((shape_of_mem (s :: rest) 0 d hd).2.2 hne).2 i hi
      rw [rowConcat_eq_rowConcatFrom]
      exact h

/-- C1 witness: the amended theorem applied to the concrete sequence
A, AB, ABBA. -/
theorem C1_partition_witness :
    2 ≤ ([['A'], ['A', 'B'], ['A', 'B', 'B', 'A']] : List (List Char)).length ∧
    (∀ s ∈ ([['A'], ['A', 'B'], ['A', 'B', 'B', 'A']] : List (List Char)), s ≠ []) ∧
    (∀ d ∈ get_derivations [['A'], ['A', 'B'], ['A', 'B', 'B', 'A']],
      ∀ i ∈ List.range (([['A'], ['A', 'B'], ['A', 'B', 'B', 'A']] : List (List Char)).length - 1),
        rowConcat [['A'], ['A', 'B'], ['A', 'B', 'B', 'A']] d i
          = [['A'], ['A', 'B'], ['A', 'B', 'B', 'A']].getD (i + 1) []) :=
  ⟨by decide, by decide, C1_partition_amended _ (by decide) (by decide)⟩

/-- C2, counterexample to the claim as stated: on the sequence consisting of
the empty string followed by A, the enumerator returns the empty mapping,
which is not a valid derivation (its rows do not partition the next string),
so the enumeration does not coincide with the set of valid mappings. -/
theorem C2_enumeration_counterexample :
    [] ∈ get_derivations [[], ['A']] ∧ ¬ validCanon [[], ['A']] [] := by
  decide

/-- C2 (amended with nonempty strings): for every sequence of at least two
nonempty strings, get_derivations enumerates exactly the valid total
mappings — every enumerated mapping is valid, and every valid mapping occurs
in the result exactly once (no omission, no duplicate). -/
theorem C2_enumeration_amended (seq : List (List Char)) (h2 : 2 ≤ seq.length)
    (hne : ∀ s ∈ seq, s ≠ []) :
    (∀ d ∈ get_derivations seq, validCanon seq d) ∧
    (∀ d : Deriv, validCanon seq d → (get_derivations seq).count d = 1) := by
  match seq, h2 with
  | s :: rest, h2 =>
      rw [get_derivations_eq]
      constructor
      · intro d hd
        obtain ⟨hkeys, hchars, hrest⟩ := shape_of_mem (s :: rest) 0 d hd
        obtain ⟨hne2, hconcat⟩ := hrest hne
        refine ⟨?_, ?_, ?_⟩
        · rw [positions_eq_positionsFrom]
          exact hkeys
        · intro e he
          refine ⟨?_, hne2 e he⟩
          have := hchars e he
          rw [Nat.sub_zero] at this
          exact this
        · intro i hi
          rw [rowConcat_eq_rowConcatFrom]
          exact hconcat i hi
      · intro d hd
        obtain ⟨hkeys, hentries, hconcat⟩ := hd
        have hmem : d ∈ allDerivsFrom 0 (s :: rest) := by
          apply mem_of_shape (s :: rest) 0 d h2 hne
          · rw [← positions_eq_positionsFrom]
            exact hkeys
          · intro e he
            rw [Nat.sub_zero]
            exact hentries e he
          · intro i hi
            rw [← rowConcat_eq_rowConcatFrom]
            exact hconcat i hi
        exact nodup_count_eq_one (allDerivsFrom_nodup (s :: rest) 0 hne) hmem

/-- C2 witness: the amended theorem applied to the concrete sequence A, AB. -/
theorem C2_enumeration_witness :
    2 ≤ ([['A'], ['A', 'B']] : List (List Char)).length ∧
    (∀ s ∈ ([['A'], ['A', 'B']] : List (List Char)), s ≠ []) ∧
    ((∀ d ∈ get_derivations [['A'], ['A', 'B']], validCanon [['A'], ['A', 'B']] d) ∧
      (∀ d : Deriv, validCanon [['A'], ['A', 'B']] d →
        (get_derivations [['A'], ['A', 'B']]).count d = 1)) :=
  ⟨by decide, by decide, C2_enumeration_amended _ (by decide) (by decide)⟩

section TallyLemmas

variable {α : Type} [DecidableEq α] [BEq α] [LawfulBEq α]

lemma lookup_dictIncr (m : List (α × Nat)) (b a : α) :
    List.lookup a (dictIncr m b)
      = if a = b then some ((List.lookup a m).getD 0 + 1) else List.lookup a m := by
  induction m with
  | nil =>
      by_cases hab : a = b
      · subst hab
        simp [dictIncr, List.lookup_cons]
      · simp [dictIncr, List.lookup_cons, beq_false_of_ne hab, hab]
  | cons e m ih =>
      rcases e with ⟨k0, v⟩
      by_cases hkb : k0 = b
      · subst hkb
        simp only [dictIncr, if_pos rfl]
        by_cases hab : a = k0
        · subst hab
          simp [List.lookup_cons]
        · simp [List.lookup_cons, beq_false_of_ne hab, hab]
      · simp only [dictIncr, if_neg hkb]
        by_cases hab : a = k0
        · subst hab
          have hab2 : a ≠ b := hkb
          simp [List.lookup_cons, hab2]
        · simp only [List.lookup_cons, beq_false_of_ne hab]
          exact ih

lemma mem_keys_dictIncr (m : List (α × Nat)) (b a : α) :
    a ∈ (dictIncr m b).map Prod.fst ↔ a ∈ m.map Prod.fst ∨ a = b := by
  induction m with
  | nil => simp [dictIncr]
  | cons e m ih =>
      rcases e with ⟨k0, v⟩
      by_cases hkb : k0 = b
      · subst hkb
        have hred : dictIncr ((k0, v) :: m) k0 = (k0, v + 1) :: m := by
          simp [dictIncr]
        rw [hred]
        simp only [List.map_cons, List.mem_cons]
        tauto
      · have hred : dictIncr ((k0, v) :: m) b = (k0, v) :: dictIncr m b := by
          simp [dictIncr, hkb]
        rw [hred]
        simp only [List.map_cons, List.mem_cons, ih]
        tauto

lemma keys_nodup_dictIncr (m : List (α × Nat)) (b : α)
    (h : (m.map Prod.fst).Nodup) : ((dictIncr m b).map Prod.fst).Nodup := by
  induction m with
  | nil => simp [dictIncr]
  | cons e m ih =>
      rcases e with ⟨k0, v⟩
      simp only [List.map_cons, List.nodup_cons] at h
      by_cases hkb : k0 = b
      · subst hkb
        have hred : dictIncr ((k0, v) :: m) k0 = (k0, v + 1) :: m := by
          simp [dictIncr]
        rw [hred]
        simp only [List.map_cons, List.nodup_cons]
        exact h
      · have hred : dictIncr ((k0, v) :: m) b = (k0, v) :: dictIncr m b := by
          simp [dictIncr, hkb]
        rw [hred]
        simp only [List.map_cons, List.nodup_cons]
        refine ⟨?_, ih h.2⟩
        rw [mem_keys_dictIncr]
        rintro (hc | hc)
        · exact h.1 hc
        · exact hkb hc

lemma lookup_foldl_dictIncr (l : List α) :
    ∀ (m : List (α × Nat)) (a : α),
      (List.lookup a (l.foldl dictIncr m)).getD 0
        = (List.lookup a m).getD 0 + l.count a := by
  induction l with
  | nil => intro m a; simp
  | cons b l ih =>
      intro m a
      show (List.lookup a (l.foldl dictIncr (dictIncr m b))).getD 0 = _
      rw [ih (dictIncr m b) a, lookup_dictIncr]
      by_cases hab : a = b
      · subst hab
        simp [List.count_cons]
        omega
      · simp [List.count_cons, hab, beq_false_of_ne (Ne.symm hab)]

lemma mem_keys_foldl_dictIncr (l : List α) :
    ∀ (m : List (α × Nat)) (a : α),
      a ∈ (l.foldl dictIncr m).map Prod.fst ↔ a ∈ m.map Prod.fst ∨ a ∈ l := by
  induction l with
  | nil => intro m a; simp
  | cons b l ih =>
      intro m a
      show a ∈ (l.foldl dictIncr (dictIncr m b)).map Prod.fst ↔ _
      rw [ih (dictIncr m b) a, mem_keys_dictIncr]
      simp only [List.mem_cons]
      tauto

lemma keys_nodup_foldl_dictIncr (l : List α) :
    ∀ (m : List (α × Nat)), (m.map Prod.fst).Nodup →
      ((l.foldl dictIncr m).map Prod.fst).Nodup := by
  induction l with
  | nil => intro m h; exact h
  | cons b l ih =>
      intro m h
      exact ih (dictIncr m b) (keys_nodup_dictIncr m b h)

lemma sum_dictIncr (p : α → Bool) (m : List (α × Nat)) (b : α) :
    (((dictIncr m b).filter (fun e => p e.1)).map Prod.snd).sum
      = ((m.filter (fun e => p e.1)).map Prod.snd).sum + if p b then 1 else 0 := by
  induction m with
  | nil =>
      by_cases hpb : p b
      · simp [dictIncr, List.filter_cons, hpb]
      · simp [dictIncr, List.filter_cons, hpb]
  | cons e m ih =>
      rcases e with ⟨k0, v⟩
      by_cases hkb : k0 = b
      · subst hkb
        by_cases hpk : p k0
        · simp [dictIncr, List.filter_cons, hpk]
          omega
        · simp [dictIncr, List.filter_cons, hpk]
      · by_cases hpk : p k0
        · simp only [dictIncr, if_neg hkb, List.filter_cons, hpk, if_pos,
            List.map_cons, List.sum_cons, ih]
          omega
        · simp only [dictIncr, if_neg hkb, List.filter_cons, hpk]
          simpa using ih

lemma sum_foldl_dictIncr (p : α → Bool) (l : List α) :
    ∀ (m : List (α × Nat)),
      (((l.foldl dictIncr m).filter (fun e => p e.1)).map Prod.snd).sum
        = ((m.filter (fun e => p e.1)).map Prod.snd).sum + l.countP p := by
  induction l with
  | nil => intro m; simp
  | cons b l ih =>
      intro m
      show (((l.foldl dictIncr (dictIncr m b)).filter _).map Prod.snd).sum = _
      rw [ih (dictIncr m b), sum_dictIncr, List.countP_cons]
      omega

lemma lookup_of_mem_keys_nodup {β : Type} (m : List (α × β)) (e : α × β)
    (hnd : (m.map Prod.fst).Nodup) (he : e ∈ m) : List.lookup e.1 m = some e.2 := by
  induction m with
  | nil => simp at he
  | cons f m ih =>
      rcases f with ⟨k0, v⟩
      simp only [List.map_cons, List.nodup_cons] at hnd
      rcases List.mem_cons.mp he with rfl | he2
      · simp [List.lookup_cons]
      · have hek : e.1 ≠ k0 := by
          intro hc
          apply hnd.1
          rw [← hc]
          exact List.mem_map_of_mem Prod.fst he2
        simp only [List.lookup_cons, beq_false_of_ne hek]
        exact ih hnd.2 he2

lemma foldl_mul_map (g : α × Nat → Nat) (m : List (α × Nat)) :
    ∀ (acc : Nat), m.foldl (fun f p => f * g p) acc = acc * (m.map g).prod := by
  induction m with
  | nil => intro acc; simp
  | cons e m ih =>
      intro acc
      show m.foldl (fun f p => f * g p) (acc * g e) = _
      rw [ih (acc * g e)]
      simp [Nat.mul_assoc]

lemma tally_lookup_getD (l : List α) (a : α) :
    (List.lookup a (tally l)).getD 0 = l.count a := by
  unfold tally
  rw [lookup_foldl_dictIncr]
  simp

lemma tally_keys_nodup (l : List α) : ((tally l).map Prod.fst).Nodup := by
  unfold tally
  exact keys_nodup_foldl_dictIncr l [] (by simp)

lemma tally_mem_keys (l : List α) (a : α) :
    a ∈ (tally l).map Prod.fst ↔ a ∈ l := by
  unfold tally
  rw [mem_keys_foldl_dictIncr]
  simp

lemma tally_entry (l : List α) (e : α × Nat) (he : e ∈ tally l) :
    e.2 = l.count e.1 := by
  have h1 := lookup_of_mem_keys_nodup (tally l) e (tally_keys_nodup l) he
  have h2 := tally_lookup_getD l e.1
  rw [h1] at h2
  simpa using h2

lemma tally_sum_filter (p : α → Bool) (l : List α) :
    (((tally l).filter (fun e => p e.1)).map Prod.snd).sum = l.countP p := by
  unfold tally
  rw [sum_foldl_dictIncr]
  simp

lemma tally_keys_perm_dedup (l : List α) : ((tally l).map Prod.fst).Perm l.dedup := by
  apply List.perm_of_nodup_nodup_toFinset_eq (tally_keys_nodup l) (List.nodup_dedup l)
  apply Finset.ext_iff.mpr
  intro a
  rw [List.mem_toFinset, List.mem_toFinset, tally_mem_keys, List.mem_dedup]

lemma tally_prod_pow (l : List α) :
    ((tally l).map (fun e => e.2 ^ e.2)).prod
      = (l.dedup.map (fun a => l.count a ^ l.count a)).prod := by
  have hmap : (tally l).map (fun e => e.2 ^ e.2)
      = (tally l).map (fun e => l.count e.1 ^ l.count e.1) := by
    apply List.map_congr_left
    intro e he
    rw [tally_entry l e he]
  rw [hmap]
  have hcomp : (tally l).map (fun e => l.count e.1 ^ l.count e.1)
      = ((tally l).map Prod.fst).map (fun a => l.count a ^ l.count a) := by
    rw [List.map_map]
    rfl
  rw [hcomp]
  exact ((tally_keys_perm_dedup l).map fun a => l.count a ^ l.count a).prod_eq

end TallyLemmas

lemma foldl_foldl_dictIncr {α : Type} [DecidableEq α] (ls : List (List α)) :
    ∀ (m : List (α × Nat)),
      ls.foldl (fun m s => s.foldl dictIncr m) m = ls.flatten.foldl dictIncr m := by
  induction ls with
  | nil => intro m; rfl
  | cons s ls ih =>
      intro m
      show ls.foldl (fun m s => s.foldl dictIncr m) (s.foldl dictIncr m) = _
      rw [ih (s.foldl dictIncr m), List.flatten_cons, List.foldl_append]

lemma get_prod_count_eq_tally (d : Deriv) :
    get_prod_count d = tally (d.map fun e => e.2) := by
  unfold get_prod_count tally
  rw [List.foldl_map]

lemma list_max_eq_none_iff (l : List Nat) : list_max l = none ↔ l = [] := by
  cases l <;> simp [list_max]

lemma foldl_max_spec (xs : List Nat) :
    ∀ (a : Nat), (xs.foldl max a = a ∨ xs.foldl max a ∈ xs) ∧
      a ≤ xs.foldl max a ∧ ∀ y ∈ xs, y ≤ xs.foldl max a := by
  induction xs with
  | nil => intro a; simp
  | cons b xs ih =>
      intro a
      have hstep : List.foldl max a (b :: xs) = List.foldl max (max a b) xs := rfl
      obtain ⟨hm, hle, hub⟩ := ih (max a b)
      rw [hstep]
      refine ⟨?_, ?_, ?_⟩
      · rcases hm with h | h
        · rcases Nat.le_total a b with hab | hab
          · refine Or.inr ?_
            rw [h, Nat.max_eq_right hab]
            exact List.mem_cons_self b xs
          · refine Or.inl ?_
            rw [h]
            exact Nat.max_eq_left hab
        · exact Or.inr (List.mem_cons_of_mem b h)
      · exact le_trans (Nat.le_max_left a b) hle
      · intro y hy
        rcases List.mem_cons.mp hy with rfl | hy2
        · exact le_trans (Nat.le_max_right a y) hle
        · exact hub y hy2

lemma list_max_spec (l : List Nat) (m : Nat) (h : list_max l = some m) :
    m ∈ l ∧ ∀ y ∈ l, y ≤ m := by
  cases l with
  | nil => simp [list_max] at h
  | cons x xs =>
      simp only [list_max, Option.some.injEq] at h
      obtain ⟨hm, hle, hub⟩ := foldl_max_spec xs x
      subst h
      constructor
      · rcases hm with h | h
        · rw [h]
          exact List.mem_cons_self x xs
        · exact List.mem_cons_of_mem x h
      · intro y hy
        rcases List.mem_cons.mp hy with rfl | hy2
        · exact hle
        · exact hub y hy2

lemma list_index_spec {α : Type} [DecidableEq α] (a : α) (dflt : α) :
    ∀ (l : List α), a ∈ l →
      list_index a l < l.length ∧ l.getD (list_index a l) dflt = a ∧
        ∀ j, j < list_index a l → l.getD j dflt ≠ a := by
  intro l
  induction l with
  | nil => intro h; simp at h
  | cons x xs ih =>
      intro h
      by_cases hxa : x = a
      · subst hxa
        simp [list_index]
      · have hmem : a ∈ xs := by
          rcases List.mem_cons.mp h with h1 | h1
          · exact absurd h1.symm hxa
          · exact h1
        obtain ⟨hlt, hget, hfirst⟩ := ih hmem
        simp only [list_index, if_neg hxa]
        refine ⟨by simp only [List.length_cons]; omega, by simpa using hget, ?_⟩
        intro j hj
        cases j with
        | zero => simpa using hxa
        | succ j =>
            simp only [List.getD_cons_succ]
            exact hfirst j (by omega)

lemma overall_none (seq : List (List Char)) (h : get_derivations seq = []) :
    overall_dervs_maxprob seq = none := by
  simp [overall_dervs_maxprob, h, list_max]

lemma overall_eq_some (seq : List (List Char)) (m : Nat)
    (hm : list_max ((get_derivations seq).map (optimal_scaled_probability_val seq))
      = some m) :
    overall_dervs_maxprob seq = some (
      ((get_prod_count ((get_derivations seq).getD
          (list_index m ((get_derivations seq).map (optimal_scaled_probability_val seq)))
          [])).map fun pf =>
        (pf.1, (pf.2 : ℚ) / (((List.lookup pf.1.1 (constant_factor seq).2).getD 0 : Nat) : ℚ))),
      (get_derivations seq).getD
        (list_index m ((get_derivations seq).map (optimal_scaled_probability_val seq))) [],
      (m : ℚ) * (constant_factor seq).1) := by
  simp only [overall_dervs_maxprob, hm]

lemma scaled_getD (seq : List (List Char)) (j : Nat)
    (hj : j < (get_derivations seq).length) :
    ((get_derivations seq).map (optimal_scaled_probability_val seq)).getD j 0
      = non_constant_factor ((get_derivations seq).getD j []) := by
  rw [List.getD_eq_getElem _ _ (by simpa using hj), List.getElem_map,
    List.getD_eq_getElem _ _ hj]
  rfl

/-- C3: for every sequence on which overall_dervs_maxprob returns (that is,
the enumeration is nonempty), the returned derivation is the first
derivation, in the enumeration order of get_derivations, whose concentration
factor attains the maximum: it attains the maximum, and every earlier
derivation scores strictly below it. -/
theorem C3_first_argmax (seq : List (List Char))
    (h : get_derivations seq ≠ []) :
    ∃ k, k < (get_derivations seq).length ∧
      ((overall_dervs_maxprob seq).map fun r => r.2.1)
        = some ((get_derivations seq).getD k []) ∧
      (∀ d ∈ get_derivations seq,
        non_constant_factor d ≤ non_constant_factor ((get_derivations seq).getD k [])) ∧
      (∀ j, j < k → non_constant_factor ((get_derivations seq).getD j [])
        < non_constant_factor ((get_derivations seq).getD k [])) := by
  have hsne : (get_derivations seq).map (optimal_scaled_probability_val seq) ≠ [] := by
    intro hc
    exact h (List.map_eq_nil_iff.mp hc)
  obtain ⟨m, hm⟩ : ∃ m,
      list_max ((get_derivations seq).map (optimal_scaled_probability_val seq)) = some m := by
    cases hcase : list_max ((get_derivations seq).map (optimal_scaled_probability_val seq)) with
    | none => exact absurd ((list_max_eq_none_iff _).mp hcase) hsne
    | some m => exact ⟨m, rfl⟩
  obtain ⟨hmm, hub⟩ := list_max_spec _ m hm
  obtain ⟨hlt, hget, hfirst⟩ := list_index_spec m 0 _ hmm
  have hlen : ((get_derivations seq).map (optimal_scaled_probability_val seq)).length
      = (get_derivations seq).length := by simp
  set idx := list_index m ((get_derivations seq).map (optimal_scaled_probability_val seq))
    with hidx
  have hidxlt : idx < (get_derivations seq).length := by omega
  have hncf : non_constant_factor ((get_derivations seq).getD idx []) = m := by
    rw [← scaled_getD seq idx hidxlt]
    exact hget
  refine ⟨idx, hidxlt, ?_, ?_, ?_⟩
  · rw [overall_eq_some seq m hm]
    rfl
  · intro d hd
    have hmem : optimal_scaled_probability_val seq d
        ∈ (get_derivations seq).map (optimal_scaled_probability_val seq) :=
      List.mem_map_of_mem _ hd
    have := hub _ hmem
    rw [hncf]
    exact this
  · intro j hj
    have hjlt : j < (get_derivations seq).length := by omega
    have hne2 := hfirst j hj
    rw [scaled_getD seq j hjlt] at hne2
    have hle : non_constant_factor ((get_derivations seq).getD j []) ≤ m := by
      rw [← scaled_getD seq j hjlt]
      apply hub
      rw [List.getD_eq_getElem _ _ (by omega : j < ((get_derivations seq).map
        (optimal_scaled_probability_val seq)).length)]
      exact List.getElem_mem _
    rw [hncf]
    omega

/-- C3 witness: the theorem applied to the concrete sequence A, AB. -/
theorem C3_first_argmax_witness :
    get_derivations [['A'], ['A', 'B']] ≠ [] ∧
    (∃ k, k < (get_derivations [['A'], ['A', 'B']]).length ∧
      ((overall_dervs_maxprob [['A'], ['A', 'B']]).map fun r => r.2.1)
        = some ((get_derivations [['A'], ['A', 'B']]).getD k []) ∧
      (∀ d ∈ get_derivations [['A'], ['A', 'B']],
        non_constant_factor d
          ≤ non_constant_factor ((get_derivations [['A'], ['A', 'B']]).getD k [])) ∧
      (∀ j, j < k →
        non_constant_factor ((get_derivations [['A'], ['A', 'B']]).getD j [])
          < non_constant_factor ((get_derivations [['A'], ['A', 'B']]).getD k []))) :=
  ⟨by decide, C3_first_argmax _ (by decide)⟩

lemma range_map_getD_dropLast (seq : List (List Char)) :
    (List.range (seq.length - 1)).map (fun i => seq.getD i []) = seq.dropLast := by
  induction seq with
  | nil => rfl
  | cons s rest ih =>
      cases rest with
      | nil => rfl
      | cons t rest2 =>
          have hlen : (s :: t :: rest2).length - 1 = ((t :: rest2).length - 1) + 1 := by
            simp
          rw [hlen, List.range_succ_eq_map, List.map_cons, List.map_map,
            List.dropLast_cons₂]
          refine congrArg₂ List.cons rfl ?_
          rw [← ih]
          apply congrArg (fun f => List.map f (List.range ((t :: rest2).length - 1)))
          funext i
          rfl

lemma positions_map_charAt (seq : List (List Char)) :
    (positions seq).map (fun ij => (seq.getD ij.1 []).getD ij.2 default)
      = seq.dropLast.flatten := by
  unfold positions
  rw [List.map_flatMap]
  have h1 : ∀ i ∈ List.range (seq.length - 1),
      ((List.range ((seq.getD i []).length)).map fun j => ((i, j) : Nat × Nat)).map
          (fun ij => (seq.getD ij.1 []).getD ij.2 default)
        = seq.getD i [] := by
    intro i _
    rw [List.map_map]
    exact range_map_getD (seq.getD i []) default
  rw [flatMap_congr_mem h1, List.flatMap_def, range_map_getD_dropLast]

/-- The characters a derivation assigns, in position order, are exactly the
characters of the non-final strings. -/
lemma deriv_chars (seq : List (List Char)) (d : Deriv)
    (hd : d ∈ get_derivations seq) :
    d.map (fun e => e.2.1) = seq.dropLast.flatten := by
  match seq with
  | [] => simp [get_derivations] at hd
  | s :: rest =>
      rw [get_derivations_eq] at hd
      obtain ⟨hkeys, hchars, -⟩ := shape_of_mem (s :: rest) 0 d hd
      have hstep : d.map (fun e => e.2.1)
          = d.map (fun e => ((s :: rest).getD e.1.1 []).getD e.1.2 default) := by
        apply List.map_congr_left
        intro e he
        have := hchars e he
        rw [Nat.sub_zero] at this
        exact this
      rw [hstep,
        show (fun (e : (Nat × Nat) × Production) =>
            ((s :: rest).getD e.1.1 []).getD e.1.2 default)
          = (fun ij => ((s :: rest).getD ij.1 []).getD ij.2 default) ∘ Prod.fst from rfl,
        ← List.map_map, hkeys, ← positions_eq_positionsFrom]
      exact positions_map_charAt (s :: rest)

lemma constant_factor_lookup (seq : List (List Char)) (c : Char) :
    (List.lookup c (constant_factor seq).2).getD 0
      = List.count c seq.dropLast.flatten := by
  show (List.lookup c (seq.dropLast.foldl (fun m s => s.foldl dictIncr m) [])).getD 0 = _
  rw [foldl_foldl_dictIncr]
  exact tally_lookup_getD seq.dropLast.flatten c

lemma sum_map_div_nat (l : List (Production × Nat)) (q : ℚ) :
    (l.map (fun pf => (pf.2 : ℚ) / q)).sum = (((l.map Prod.snd).sum : Nat) : ℚ) / q := by
  induction l with
  | nil => simp
  | cons e l ih =>
      simp only [List.map_cons, List.sum_cons, ih]
      push_cast
      rw [div_add_div_same]

/-- C4: whenever overall_dervs_maxprob returns a distribution on a sequence
of at least two strings, the probabilities of the productions sharing any
left-side symbol that occurs in the distribution sum to exactly 1 (each
probability being count-in-best-derivation over the symbol's total
occurrence count in the non-final strings). -/
theorem C4_distribution_sums_to_one (seq : List (List Char))
    (h2 : 2 ≤ seq.length) :
    ∀ r ∈ overall_dervs_maxprob seq, ∀ c ∈ r.1.map (fun pr => pr.1.1),
      ((r.1.filter fun pr => pr.1.1 == c).map (fun pr => pr.2)).sum = 1 := by
  intro r hr c hc
  have hne : get_derivations seq ≠ [] := by
    intro hnil
    rw [Option.mem_def, overall_none seq hnil] at hr
    exact Option.noConfusion hr
  obtain ⟨m, hm⟩ : ∃ m,
      list_max ((get_derivations seq).map (optimal_scaled_probability_val seq)) = some m := by
    cases hcase : list_max ((get_derivations seq).map (optimal_scaled_probability_val seq)) with
    | none =>
        exact absurd ((list_max_eq_none_iff _).mp hcase)
          (fun hc2 => hne (List.map_eq_nil_iff.mp hc2))
    | some m => exact ⟨m, rfl⟩
  rw [Option.mem_def, overall_eq_some seq m hm, Option.some.injEq] at hr
  obtain ⟨hmm, -⟩ := list_max_spec _ m hm
  obtain ⟨hlt, -, -⟩ := list_index_spec m 0 _ hmm
  set idx := list_index m ((get_derivations seq).map (optimal_scaled_probability_val seq))
    with hidx
  set best := (get_derivations seq).getD idx [] with hbest
  have hidxlt : idx < (get_derivations seq).length := by
    have : ((get_derivations seq).map (optimal_scaled_probability_val seq)).length
        = (get_derivations seq).length := by simp
    omega
  have hbestmem : best ∈ get_derivations seq := by
    rw [hbest, List.getD_eq_getElem _ _ hidxlt]
    exact List.getElem_mem _
  have hchars : best.map (fun e => e.2.1) = seq.dropLast.flatten :=
    deriv_chars seq best hbestmem
  -- unpack the returned distribution
  rw [← hr] at hc ⊢
  simp only at hc ⊢
  set flat := seq.dropLast.flatten with hflat
  set pc := get_prod_count best with hpc
  -- the distribution entries whose left side is c
  have hfilter : ((pc.map fun pf =>
        (pf.1, (pf.2 : ℚ) / (((List.lookup pf.1.1 (constant_factor seq).2).getD 0 : Nat) : ℚ))).filter
          fun pr => pr.1.1 == c)
      = ((pc.filter fun pf => pf.1.1 == c).map fun pf =>
        (pf.1, (pf.2 : ℚ) / (((List.lookup pf.1.1 (constant_factor seq).2).getD 0 : Nat) : ℚ))) := by
    rw [List.filter_map]
    rfl
  rw [hfilter, List.map_map]
  have hmapval : ((pc.filter fun pf => pf.1.1 == c).map
        ((fun pr : Production × ℚ => pr.2) ∘ (fun pf =>
          (pf.1, (pf.2 : ℚ) / (((List.lookup pf.1.1 (constant_factor seq).2).getD 0 : Nat) : ℚ)))))
      = ((pc.filter fun pf => pf.1.1 == c).map fun pf =>
          (pf.2 : ℚ) / ((List.count c flat : Nat) : ℚ)) := by
    apply List.map_congr_left
    intro pf hpf
    have hpfc : pf.1.1 = c := by
      have := (List.mem_filter.mp hpf).2
      exact eq_of_beq this
    show (pf.2 : ℚ) / (((List.lookup pf.1.1 (constant_factor seq).2).getD 0 : Nat) : ℚ) = _
    rw [hpfc, constant_factor_lookup seq c]
  rw [hmapval, sum_map_div_nat]
  -- the production counts with left side c sum to the occurrences of c
  have hsum : ((pc.filter fun pf => pf.1.1 == c).map Prod.snd).sum = List.count c flat := by
    rw [hpc, get_prod_count_eq_tally]
    rw [tally_sum_filter (fun pr => pr.1 == c) (best.map fun e => e.2)]
    rw [List.countP_map]
    have hpred : ((fun (pr : Production) => pr.1 == c) ∘ (fun (e : (Nat × Nat) × Production) => e.2))
        = (fun x => x == c) ∘ (fun (e : (Nat × Nat) × Production) => e.2.1) := rfl
    rw [hpred, ← List.countP_map, ← List.count_eq_countP, hchars]
  rw [hsum]
  -- c occurs, so the denominator is nonzero
  have hcmem : c ∈ flat := by
    simp only [List.map_map, List.mem_map] at hc
    obtain ⟨pf, hpf, hpfc⟩ := hc
    have hkey : pf.1 ∈ pc.map Prod.fst := List.mem_map_of_mem Prod.fst hpf
    rw [hpc, get_prod_count_eq_tally, tally_mem_keys] at hkey
    simp only [List.mem_map] at hkey
    obtain ⟨e, he, hev⟩ := hkey
    rw [← hchars]
    simp only [List.mem_map]
    refine ⟨e, he, ?_⟩
    show e.2.1 = c
    rw [hev]
    exact hpfc
  have hpos : 0 < List.count c flat := List.count_pos_iff.mpr hcmem
  apply div_self
  have := Nat.cast_ne_zero (R := ℚ) (n := List.count c flat)
  rw [this]
  omega

/-- C4 witness: the theorem applied to the concrete sequence AB, ABAB. -/
theorem C4_distribution_sums_to_one_witness :
    2 ≤ ([['A', 'B'], ['A', 'B', 'A', 'B']] : List (List Char)).length ∧
    (∀ r ∈ overall_dervs_maxprob [['A', 'B'], ['A', 'B', 'A', 'B']],
      ∀ c ∈ r.1.map (fun pr => pr.1.1),
        ((r.1.filter fun pr => pr.1.1 == c).map (fun pr => pr.2)).sum = 1) :=
  ⟨by decide, C4_distribution_sums_to_one _ (by decide)⟩

lemma constant_factor_fst (seq : List (List Char)) :
    (constant_factor seq).1 = 1 / charProduct seq := by
  show (1 : ℚ) / (((seq.dropLast.foldl (fun m s => s.foldl dictIncr m) []).foldl
      (fun f p => f * p.2 ^ p.2) 1 : Nat) : ℚ) = _
  rw [foldl_foldl_dictIncr]
  rw [show seq.dropLast.flatten.foldl dictIncr ([] : List (Char × Nat))
      = tally seq.dropLast.flatten from rfl]
  rw [foldl_mul_map (fun p => p.2 ^ p.2) (tally seq.dropLast.flatten) 1, one_mul,
    tally_prod_pow]
  unfold charProduct
  rw [Nat.cast_list_prod, List.map_map]
  have hmaps : (seq.dropLast.flatten.dedup).map (Nat.cast ∘ fun a =>
        List.count a seq.dropLast.flatten ^ List.count a seq.dropLast.flatten)
      = (seq.dropLast.flatten.dedup).map (fun c =>
        ((List.count c seq.dropLast.flatten : ℚ)) ^ List.count c seq.dropLast.flatten) := by
    apply List.map_congr_left
    intro a _
    show ((List.count a seq.dropLast.flatten ^ List.count a seq.dropLast.flatten : Nat) : ℚ)
      = _
    push_cast
    rfl
  rw [hmaps]

/-- C5: whenever overall_dervs_maxprob returns, the final probability it
returns equals the concentration factor of the returned best derivation
times the normalizing constant 1 over the product, over every character
occurring in the non-final strings, of count ^ count. -/
theorem C5_final_probability_formula (seq : List (List Char)) :
    ∀ r ∈ overall_dervs_maxprob seq,
      r.2.2 = (non_constant_factor r.2.1 : ℚ) * (1 / charProduct seq) := by
  intro r hr
  have hne : get_derivations seq ≠ [] := by
    intro hnil
    rw [Option.mem_def, overall_none seq hnil] at hr
    exact Option.noConfusion hr
  obtain ⟨m, hm⟩ : ∃ m,
      list_max ((get_derivations seq).map (optimal_scaled_probability_val seq)) = some m := by
    cases hcase : list_max ((get_derivations seq).map (optimal_scaled_probability_val seq)) with
    | none =>
        exact absurd ((list_max_eq_none_iff _).mp hcase)
          (fun hc2 => hne (List.map_eq_nil_iff.mp hc2))
    | some m => exact ⟨m, rfl⟩
  rw [Option.mem_def, overall_eq_some seq m hm, Option.some.injEq] at hr
  obtain ⟨hmm, -⟩ := list_max_spec _ m hm
  obtain ⟨hlt, hget, -⟩ := list_index_spec m 0 _ hmm
  have hidxlt : list_index m ((get_derivations seq).map (optimal_scaled_probability_val seq))
      < (get_derivations seq).length := by
    have : ((get_derivations seq).map (optimal_scaled_probability_val seq)).length
        = (get_derivations seq).length := by simp
    omega
  have hncf : non_constant_factor ((get_derivations seq).getD
      (list_index m ((get_derivations seq).map (optimal_scaled_probability_val seq))) [])
      = m := by
    rw [← scaled_getD seq _ hidxlt]
    exact hget
  rw [← hr]
  show (m : ℚ) * (constant_factor seq).1 = _
  rw [constant_factor_fst, hncf]

/-- C5 witness: the theorem applied to the concrete sequence AB, ABAB, on
which the solver does return a result. -/
theorem C5_final_probability_formula_witness :
    (overall_dervs_maxprob [['A', 'B'], ['A', 'B', 'A', 'B']]).isSome = true ∧
    (∀ r ∈ overall_dervs_maxprob [['A', 'B'], ['A', 'B', 'A', 'B']],
      r.2.2 = (non_constant_factor r.2.1 : ℚ)
        * (1 / charProduct [['A', 'B'], ['A', 'B', 'A', 'B']])) :=
  ⟨by decide, C5_final_probability_formula _⟩

lemma overall_singleton (s : List Char) :
    get_derivations [s] = [[]] ∧ overall_dervs_maxprob [s] = some ([], [], 1) := by
  have h1 : get_derivations [s] = [[]] := rfl
  refine ⟨h1, ?_⟩
  have hm : list_max ((get_derivations [s]).map (optimal_scaled_probability_val [s]))
      = some 1 := rfl
  rw [overall_eq_some [s] 1 hm]
  show some ([], ([] : Deriv), ((1 : Nat) : ℚ) * ((1 : ℚ) / ((1 : Nat) : ℚ)))
    = some ([], ([] : Deriv), (1 : ℚ))
  norm_num

/-- C10: a sequence consisting of exactly one string (whatever that string
is) yields the one-element enumeration containing the empty mapping, and
overall_dervs_maxprob returns the empty distribution, the empty derivation,
and final probability 1. -/
theorem C10_singleton_sequence : ∀ s : List Char,
    get_derivations [s] = [[]] ∧ overall_dervs_maxprob [s] = some ([], [], 1) :=
  fun s => overall_singleton s

/-- C6: evaluation at the failing input.  On the one-string sequence
containing just A — fewer than 2 strings — overall_dervs_maxprob returns a
result (empty distribution, empty derivation, probability 1) instead of
raising a dedicated EmptyInputError; no degenerate-input check exists in
the code. -/
theorem C6_no_degenerate_input_check :
    overall_dervs_maxprob [['A']] = some ([], [], 1) :=
  (overall_singleton ['A']).2

/-- C7: evaluation at the failing input.  On the sequence AB, A every DFS
branch is infeasible, get_derivations is empty, and overall_dervs_maxprob
reaches Python's max([]) — modelled none — which raises a bare ValueError,
not a dedicated NoDerivationError. -/
theorem C7_empty_enumeration_generic_error :
    get_derivations [['A', 'B'], ['A']] = [] ∧
    overall_dervs_maxprob [['A', 'B'], ['A']] = none := by
  have h : get_derivations [['A', 'B'], ['A']] = [] := by decide
  exact ⟨h, overall_none _ h⟩

lemma insertSorted_perm {α : Type} (le : α → α → Bool) (a : α) :
    ∀ (l : List α), (insertSorted le a l).Perm (a :: l) := by
  intro l
  induction l with
  | nil => exact List.Perm.refl _
  | cons b rest ih =>
      show (if le a b then a :: b :: rest else b :: insertSorted le a rest).Perm _
      by_cases h : le a b
      · rw [if_pos h]
      · rw [if_neg h]
        exact (ih.cons b).trans (List.Perm.swap a b rest)

lemma sortBy_perm {α : Type} (le : α → α → Bool) (l : List α) :
    (sortBy le l).Perm l := by
  induction l with
  | nil => exact List.Perm.refl _
  | cons a l ih =>
      show (insertSorted le a (sortBy le l)).Perm (a :: l)
      exact (insertSorted_perm le a (sortBy le l)).trans (ih.cons a)

lemma pairs_list_length (dl : List Deriv) :
    (pairs_list dl).length = (all_prods dl).length :=
  (sortBy_perm prodLe (all_prods dl)).length_eq

lemma mem_unique_chars (pl : List Production) (c : Char) :
    c ∈ unique_chars pl ↔ c ∈ pl.map (fun p => p.1) := by
  unfold unique_chars
  rw [(sortBy_perm _ _).mem_iff, List.mem_dedup]

lemma unique_chars_nodup (pl : List Production) : (unique_chars pl).Nodup := by
  unfold unique_chars
  rw [(sortBy_perm _ _).nodup_iff]
  exact List.nodup_dedup _

lemma mapWithIdx_length (f : Nat → ℚ → ℚ) :
    ∀ (i : Nat) (l : List ℚ), (mapWithIdx f i l).length = l.length := by
  intro i l
  induction l generalizing i with
  | nil => rfl
  | cons x xs ih => simp [mapWithIdx, ih]

lemma mapWithIdx_getD (f : Nat → ℚ → ℚ) :
    ∀ (l : List ℚ) (i j : Nat), j < l.length →
      (mapWithIdx f i l).getD j 0 = f (i + j) (l.getD j 0) := by
  intro l
  induction l with
  | nil => intro i j hj; simp at hj
  | cons x xs ih =>
      intro i j hj
      cases j with
      | zero => simp [mapWithIdx]
      | succ j =>
          simp only [mapWithIdx, List.getD_cons_succ]
          rw [ih (i + 1) j (by simpa using Nat.lt_of_succ_lt_succ hj)]
          congr 1
          omega

lemma normalize_char_length (pl : List Production) (arr : List ℚ) (c : Char) :
    (normalize_char pl arr c).length = arr.length := by
  unfold normalize_char
  by_cases h : epsilon12 < sum_for_char pl arr c
  · rw [if_pos h, mapWithIdx_length]
  · rw [if_neg h, mapWithIdx_length]

lemma normalize_char_getD (pl : List Production) (arr : List ℚ) (c : Char)
    (j : Nat) (hj : j < arr.length) :
    (normalize_char pl arr c).getD j 0
      = if charAtIdx pl j = c then
          (if epsilon12 < sum_for_char pl arr c
           then arr.getD j 0 / sum_for_char pl arr c
           else 1 / (k_for_char pl c : ℚ))
        else arr.getD j 0 := by
  unfold normalize_char
  by_cases h : epsilon12 < sum_for_char pl arr c
  · rw [if_pos h, mapWithIdx_getD _ arr 0 j hj]
    by_cases hc : charAtIdx pl j = c
    · rw [if_pos (by simpa using hc), if_pos hc, if_pos h]
    · rw [if_neg (by simpa using hc), if_neg hc]
  · rw [if_neg h, mapWithIdx_getD _ arr 0 j hj]
    by_cases hc : charAtIdx pl j = c
    · rw [if_pos (by simpa using hc), if_pos hc, if_neg h]
    · rw [if_neg (by simpa using hc), if_neg hc]

lemma rat_list_ext (l1 l2 : List ℚ) (hlen : l1.length = l2.length)
    (h : ∀ j, j < l1.length → l1.getD j 0 = l2.getD j 0) : l1 = l2 := by
  apply List.ext_getElem hlen
  intro j h1 h2
  have := h j h1
  rw [List.getD_eq_getElem l1 0 h1, List.getD_eq_getElem l2 0 h2] at this
  exact this

lemma sum_for_char_invariant (pl : List Production) (arr : List ℚ) (c c2 : Char)
    (hne : c2 ≠ c) :
    sum_for_char pl (normalize_char pl arr c) c2 = sum_for_char pl arr c2 := by
  unfold sum_for_char
  congr 1
  apply rat_list_ext
  · rw [mapWithIdx_length, mapWithIdx_length, normalize_char_length]
  · intro j hj
    have hj1 : j < (normalize_char pl arr c).length := by
      rw [mapWithIdx_length] at hj
      exact hj
    have hj2 : j < arr.length := by
      rw [normalize_char_length] at hj1
      exact hj1
    rw [mapWithIdx_getD _ _ 0 j hj1, mapWithIdx_getD _ arr 0 j hj2]
    simp only [Nat.zero_add]
    by_cases hc : charAtIdx pl j = c2
    · rw [if_pos hc, if_pos hc, normalize_char_getD pl arr c j hj2,
        if_neg (by rw [hc]; exact hne)]
    · rw [if_neg hc, if_neg hc]

lemma normalize_foldl_length (pl : List Production) :
    ∀ (ucs : List Char) (arr : List ℚ),
      (ucs.foldl (normalize_char pl) arr).length = arr.length := by
  intro ucs
  induction ucs with
  | nil => intro arr; rfl
  | cons c ucs ih =>
      intro arr
      show (ucs.foldl (normalize_char pl) (normalize_char pl arr c)).length = _
      rw [ih (normalize_char pl arr c), normalize_char_length]

lemma normalize_foldl_getD (pl : List Production) :
    ∀ (ucs : List Char) (arr : List ℚ), ucs.Nodup →
      ∀ j, j < arr.length →
        (ucs.foldl (normalize_char pl) arr).getD j 0
          = if charAtIdx pl j ∈ ucs then
              (if epsilon12 < sum_for_char pl arr (charAtIdx pl j)
               then arr.getD j 0 / sum_for_char pl arr (charAtIdx pl j)
               else 1 / (k_for_char pl (charAtIdx pl j) : ℚ))
            else arr.getD j 0 := by
  intro ucs
  induction ucs with
  | nil =>
      intro arr _ j _
      simp
  | cons c ucs ih =>
      intro arr hnd j hj
      have hnd2 := List.nodup_cons.mp hnd
      have hj2 : j < (normalize_char pl arr c).length := by
        rw [normalize_char_length]
        exact hj
      show (ucs.foldl (normalize_char pl) (normalize_char pl arr c)).getD j 0 = _
      rw [ih (normalize_char pl arr c) hnd2.2 j hj2]
      by_cases hmem : charAtIdx pl j ∈ ucs
      · have hcne : charAtIdx pl j ≠ c := by
          intro hc
          rw [hc] at hmem
          exact hnd2.1 hmem
        rw [if_pos hmem, if_pos (List.mem_cons_of_mem c hmem),
          sum_for_char_invariant pl arr c (charAtIdx pl j) hcne,
          normalize_char_getD pl arr c j hj, if_neg hcne]
      · by_cases hceq : charAtIdx pl j = c
        · rw [if_neg hmem, normalize_char_getD pl arr c j hj, if_pos hceq, hceq,
            if_pos (List.mem_cons_self c ucs)]
        · rw [if_neg hmem, normalize_char_getD pl arr c j hj, if_neg hceq,
            if_neg (by
              intro hc
              rcases List.mem_cons.mp hc with h | h
              · exact hceq h
              · exact hmem h)]

lemma charAtIdx_mem (pl : List Production) (j : Nat) (hj : j < pl.length) :
    charAtIdx pl j ∈ pl.map (fun p => p.1) := by
  unfold charAtIdx
  rw [List.getD_eq_getElem pl default hj]
  exact List.mem_map_of_mem _ (List.getElem_mem hj)

lemma normalize_guess_eq_spec (pl : List Production) (g : List ℚ)
    (hg : g.length = pl.length) :
    (unique_chars pl).foldl (normalize_char pl) g = specRenormalize pl g := by
  apply rat_list_ext
  · rw [normalize_foldl_length]
    unfold specRenormalize
    rw [mapWithIdx_length]
  · intro j hj
    rw [normalize_foldl_length] at hj
    rw [normalize_foldl_getD pl (unique_chars pl) g (unique_chars_nodup pl) j hj]
    have hmem : charAtIdx pl j ∈ unique_chars pl := by
      rw [mem_unique_chars]
      exact charAtIdx_mem pl j (by omega)
    rw [if_pos hmem]
    unfold specRenormalize
    rw [mapWithIdx_getD _ g 0 j hj]
    simp only [Nat.zero_add]

/-- C8: the guess-validation phase of solve_s0l fails (the ValueError of the
source, modelled as the error branch) exactly when an explicit initial guess
is supplied whose length differs from the number of distinct (symbol,
rewrite) productions across the input derivations; and on a matching length
it proceeds, returning the guess renormalized per symbol, with a symbol's
entries replaced by the uniform 1/k whenever their sum is at most the 1e-12
threshold (specRenormalize restates that contract in the claim's words). -/
theorem C8_init_guess_check (dl : List Deriv) (ig : Option (List ℚ)) :
    ((solve_s0l_guess (pairs_list dl) ig).isOk = false ↔
      (∃ g, ig = some g ∧
        g.length ≠ ((dl.flatMap fun d => d.map fun e => e.2).dedup).length)) ∧
    (∀ g, ig = some g →
      g.length = ((dl.flatMap fun d => d.map fun e => e.2).dedup).length →
      solve_s0l_guess (pairs_list dl) ig
        = Except.ok (specRenormalize (pairs_list dl) g)) := by
  have hlen : (pairs_list dl).length
      = ((dl.flatMap fun d => d.map fun e => e.2).dedup).length :=
    pairs_list_length dl
  have hsome : ∀ g : List ℚ, solve_s0l_guess (pairs_list dl) (some g)
      = if g.length ≠ (pairs_list dl).length then
          Except.error "init_guess length does not match the number of pairs"
        else Except.ok ((unique_chars (pairs_list dl)).foldl
          (normalize_char (pairs_list dl)) g) := fun g => rfl
  cases ig with
  | none =>
      constructor
      · constructor
        · intro hc
          have hred : solve_s0l_guess (pairs_list dl) none
              = Except.ok (uniform_guess (pairs_list dl)) := rfl
          rw [hred] at hc
          exact absurd hc (by simp [Except.isOk, Except.toBool])
        · rintro ⟨g, hg, -⟩
          exact Option.noConfusion hg
      · intro g hg
        exact absurd hg (Option.noConfusion)
  | some g =>
      constructor
      · constructor
        · intro hc
          refine ⟨g, rfl, ?_⟩
          intro hlen2
          rw [hsome g, if_neg (by omega)] at hc
          exact absurd hc (by simp [Except.isOk, Except.toBool])
        · rintro ⟨g2, hg2, hlen2⟩
          have hgg : g2 = g := by
            injection hg2.symm
          subst hgg
          rw [hsome g2, if_pos (by omega)]
          rfl
      · intro g2 hg2 hlen2
        have hgg : g2 = g := by
          injection hg2.symm
        subst hgg
        rw [hsome g2, if_neg (by omega)]
        rw [normalize_guess_eq_spec (pairs_list dl) g2 (by omega)]

/-- C9: evaluation of the multi-start accounting at the failing outcome.
With dict_list containing the single derivation mapping position (0,0) to
the production A to A, the lone production is constrained to probability 1,
so the uniform attempt and the single random restart both converge with
objective 1; the wrapper then reports success_count 1, not 2, because the
increment sits inside the same conditional that requires a strictly
improving objective — contradicting the docstring's "how many runs
converged successfully". -/
theorem C9_success_count_eval :
    solve_with_restarts_select [(true, 1), (true, 1)] = (some 1, 1) := by
  decide
